import Mathlib

/-!
# Verification of `filter_1pux` (1Password archive filtering)

Shallow embedding of `src/filter_1pux/one_password_archive.py`.

JSON values (the result of Python `json.load`) are modelled by the inductive
`Json`; Python `dict`s become association lists whose keys are unique in
well-formed data (lookup returns the first match, assignment replaces the
first match in place, as Python `dict` does for its unique keys).
Python `set`s of strings become `Finset String`.
Failures (`raise Filter1PuxError`, `KeyError`) become `Except Err`.
-/

set_option maxHeartbeats 1000000

/-- A JSON value, as produced by Python `json.load`. Objects are association
lists in insertion order (Python dicts are ordered and have unique keys). -/
inductive Json where
  | str (s : String)
  | num (n : Int)
  | bool (b : Bool)
  | null
  | arr (elems : List Json)
  | obj (fields : List (String × Json))

/-- Python `d[k]` / `k in d` on a dict: find the value at the first (unique)
occurrence of key `k`. -/
def alGet {κ : Type} {α : Type} [DecidableEq κ] : List (κ × α) → κ → Option α
  | [], _ => none
  | (k', v) :: t, k => if k' = k then some v else alGet t k

/-- Python `d[k] = v` on a dict: replace the value at `k` in place if the key
is present, otherwise append the new key at the end (insertion order). -/
def alSet {κ : Type} {α : Type} [DecidableEq κ] : List (κ × α) → κ → α → List (κ × α)
  | [], k, v => [(k, v)]
  | (k', v') :: t, k, v => if k' = k then (k, v) :: t else (k', v') :: alSet t k v

/-- `j[k]` when `j` is a JSON object; `none` otherwise or when absent. -/
def jAttr (j : Json) (k : String) : Option Json :=
  match j with
  | .obj kvs => alGet kvs k
  | _ => none

/-- Extract a JSON string value. -/
def jStr : Json → Option String
  | .str s => some s
  | _ => none

/-- `dict(j)` followed by `copy[k] = v`: shallow-copy a JSON object and
replace the value at key `k` (non-objects returned unchanged). -/
def objSet (j : Json) (k : String) (v : Json) : Json :=
  match j with
  | .obj kvs => .obj (alSet kvs k v)
  | _ => j

/-- Errors raised during construction (`Filter1PuxError` and `KeyError` in the
source, distinguished here by what the message reports). -/
inductive Err where
  | missingKey (what : String)
  | malformed (what : String)
  | dupItemUuid (uuid : String)
  | dupVaultUuid (uuid : String)
  | dupVaultName (nm : String)
  | dupAccountName (nm : String)
  | dupAccountUuid (uuid : String)
deriving DecidableEq, Repr

/-- Does the error report a duplicate identifier (as opposed to a malformed or
missing field)? -/
def Err.isDupIdent : Err → Bool
  | .dupItemUuid _ => true
  | .dupVaultUuid _ => true
  | .dupVaultName _ => true
  | .dupAccountName _ => true
  | .dupAccountUuid _ => true
  | _ => false

/-- Union of a list of finite string sets. -/
def unionList (l : List (Finset String)) : Finset String :=
  l.foldr (fun s t => s ∪ t) ∅

mutual

/-- `OnePasswordItemData._add_all_document_ids`: recursively collect every
string value stored under a key literally named `documentId`, at any depth.
A `documentId` key whose value is itself a dict or list is recursed into,
not collected (exactly as the `elif` chain in the source). -/
def addAllDocumentIds : Json → Finset String
  | .arr vs => addAllDocumentIdsList vs
  | .obj kvs => addAllDocumentIdsObj kvs
  | _ => ∅

/-- The `for v in subtree` loop when the subtree is a list. -/
def addAllDocumentIdsList : List Json → Finset String
  | [] => ∅
  | v :: rest =>
    (match v with
      | .obj kvs => addAllDocumentIdsObj kvs
      | .arr vs => addAllDocumentIdsList vs
      | _ => ∅) ∪ addAllDocumentIdsList rest

/-- The `for k, v in subtree.items()` loop when the subtree is a dict. -/
def addAllDocumentIdsObj : List (String × Json) → Finset String
  | [] => ∅
  | (k, v) :: rest =>
    (match v with
      | .obj kvs => addAllDocumentIdsObj kvs
      | .arr vs => addAllDocumentIdsList vs
      | .str s => if k = "documentId" then {s} else ∅
      | _ => ∅) ∪ addAllDocumentIdsObj rest

end

/-- `OnePasswordItemData`: the raw payload plus the collected document ids. -/
structure ItemData where
  data : Json
  document_ids : Finset String

/-- `OnePasswordItemData.__init__` (never fails by itself). -/
def parseItem (j : Json) : ItemData :=
  ⟨j, addAllDocumentIds j⟩

/-- `OnePasswordItemData.item_uuid`: `self._data['uuid']` (a `KeyError` in the
source when absent; `none` here, turned into an error at the use site). -/
def itemUuid (j : Json) : Option String :=
  (jAttr j "uuid").bind jStr

/-- `OnePasswordVaultData`: raw payload, parsed items, item index, aggregated
document ids. -/
structure VaultData where
  data : Json
  items : List ItemData
  items_by_uuid : List (String × ItemData)
  document_ids : Finset String

/-- `vault.vault_uuid = data['attrs']['uuid']`. -/
def vaultUuid (j : Json) : Option String :=
  ((jAttr j "attrs").bind (fun a => jAttr a "uuid")).bind jStr

/-- `vault.vault_name = data['attrs']['name']`. -/
def vaultName (j : Json) : Option String :=
  ((jAttr j "attrs").bind (fun a => jAttr a "name")).bind jStr

/-- The `for item_raw_data in data['items']` loop of
`OnePasswordVaultData.__init__`: parse each item, reject a repeated item uuid,
accumulate the item list, the uuid index and the document-id set. -/
def vaultItemsLoop : List Json → List ItemData → List (String × ItemData) →
    Finset String → Except Err (List ItemData × List (String × ItemData) × Finset String)
  | [], items, byU, docs => .ok (items, byU, docs)
  | raw :: rest, items, byU, docs =>
    let it := parseItem raw
    match itemUuid raw with
    | none => .error (.missingKey "item uuid")
    | some u =>
      if (alGet byU u).isSome then .error (.dupItemUuid u)
      else vaultItemsLoop rest (items ++ [it]) (byU ++ [(u, it)]) (docs ∪ it.document_ids)

/-- `OnePasswordVaultData.__init__`: require an `attrs` dict and an `items`
list, then run the item loop. -/
def parseVault (j : Json) : Except Err VaultData :=
  match j with
  | .obj kvs =>
    match alGet kvs "attrs" with
    | some (.obj _) =>
      match alGet kvs "items" with
      | some (.arr raws) =>
        match vaultItemsLoop raws [] [] ∅ with
        | .ok (items, byU, docs) => .ok ⟨.obj kvs, items, byU, docs⟩
        | .error e => .error e
      | some _ => .error (.malformed "vault items property is not a list")
      | none => .error (.malformed "vault is missing items property")
    | some _ => .error (.malformed "vault attrs property is not a dict")
    | none => .error (.malformed "vault is missing attrs property")
  | _ => .error (.malformed "vault is not a dict")

/-- Loop state of `OnePasswordAccountData.__init__`'s `for vault_raw_data in
data['vaults']` loop: the unfiltered and filtered vault lists, indices and
document-id sets being accumulated. -/
structure AccSt where
  uv : List VaultData
  ubyU : List (String × VaultData)
  ubyN : List (String × VaultData)
  ud : Finset String
  fv : List VaultData
  fbyU : List (String × VaultData)
  fbyN : List (String × VaultData)
  fd : Finset String

/-- The vault loop of `OnePasswordAccountData.__init__`: parse each vault,
reject duplicate vault uuid then duplicate vault name, extend the unfiltered
view, and extend the filtered view when `include_all_vaults` is false and the
vault's uuid or name is in the selector.  (When `include_all_vaults` is true
the source aliases the filtered structures to the unfiltered ones, so the
loop leaves the separate filtered fields untouched; the aliasing is resolved
in `AccountData.filtered_vaults` below.) -/
def accLoop (sel : Finset (Option String)) (ia : Bool) :
    List Json → AccSt → Except Err AccSt
  | [], st => .ok st
  | raw :: rest, st =>
    match parseVault raw with
    | .error e => .error e
    | .ok v =>
      match vaultUuid v.data with
      | none => .error (.missingKey "vault uuid")
      | some u =>
        if (alGet st.ubyU u).isSome then .error (.dupVaultUuid u)
        else
          match vaultName v.data with
          | none => .error (.missingKey "vault name")
          | some n =>
            if (alGet st.ubyN n).isSome then .error (.dupVaultName n)
            else
              let keep := !ia && (decide (some u ∈ sel) || decide (some n ∈ sel))
              accLoop sel ia rest
                ⟨st.uv ++ [v], st.ubyU ++ [(u, v)], st.ubyN ++ [(n, v)],
                 st.ud ∪ v.document_ids,
                 if keep then st.fv ++ [v] else st.fv,
                 if keep then st.fbyU ++ [(u, v)] else st.fbyU,
                 if keep then st.fbyN ++ [(n, v)] else st.fbyN,
                 if keep then st.fd ∪ v.document_ids else st.fd⟩

/-- `OnePasswordAccountData`: the raw account payload, both views of the
vaults, the selector, and the derived filtered payload.  `include_all_vaults`
records which branch the constructor took: when it is true the source aliases
every filtered structure to the corresponding unfiltered one (no copy); the
separate `fv`/`fbyU`/`fbyN`/`fd` fields are only meaningful otherwise. -/
structure AccountData where
  unfiltered_data : Json
  unfiltered_vaults : List VaultData
  unfiltered_vaults_by_uuid : List (String × VaultData)
  unfiltered_vaults_by_name : List (String × VaultData)
  unfiltered_document_ids : Finset String
  vault_name_set : Finset (Option String)
  include_all_vaults : Bool
  fv : List VaultData
  fbyU : List (String × VaultData)
  fbyN : List (String × VaultData)
  fd : Finset String
  filtered_data : Json

/-- `OnePasswordAccountData.filtered_vault_list` (the alias resolved). -/
def AccountData.filtered_vaults (a : AccountData) : List VaultData :=
  if a.include_all_vaults then a.unfiltered_vaults else a.fv

/-- `OnePasswordAccountData.filtered_document_ids` (the alias resolved). -/
def AccountData.filtered_document_ids (a : AccountData) : Finset String :=
  if a.include_all_vaults then a.unfiltered_document_ids else a.fd

/-- True exactly when `self._filtered_data` is the very same Python object as
`self._unfiltered_data` (the `include_all_vaults` branch of the source); when
false, `self._filtered_data` is a newly built shallow copy. -/
def AccountData.filtered_aliases_unfiltered (a : AccountData) : Bool :=
  a.include_all_vaults

/-- `OnePasswordAccountData.account_name`: `attrs['accountName']`. -/
def accountName (j : Json) : Option String :=
  ((jAttr j "attrs").bind (fun a => jAttr a "accountName")).bind jStr

/-- `OnePasswordAccountData.owner_name`: `attrs['name']`. -/
def ownerName (j : Json) : Option String :=
  ((jAttr j "attrs").bind (fun a => jAttr a "name")).bind jStr

/-- `OnePasswordAccountData.account_uuid`: `attrs['uuid']`. -/
def accountUuid (j : Json) : Option String :=
  ((jAttr j "attrs").bind (fun a => jAttr a "uuid")).bind jStr

/-- `OnePasswordAccountData.__init__`: require `attrs` (dict) and `vaults`
(list); `vault_name_set` is `set([None])` when no selector is given, else the
given selector; run the vault loop; finally either alias the filtered payload
(wildcard present) or build the shallow copy with `vaults` replaced by the raw
payloads of the included vaults, in original order. -/
def parseAccount (j : Json) (include_vault_names : Option (Finset (Option String))) :
    Except Err AccountData :=
  match j with
  | .obj kvs =>
    match alGet kvs "attrs" with
    | some (.obj _) =>
      match alGet kvs "vaults" with
      | some (.arr raws) =>
        let sel := include_vault_names.getD {none}
        let ia := decide (none ∈ sel)
        match accLoop sel ia raws ⟨[], [], [], ∅, [], [], [], ∅⟩ with
        | .ok st =>
          let fdata := if ia then Json.obj kvs
            else objSet (.obj kvs) "vaults" (.arr (st.fv.map (fun v => v.data)))
          .ok ⟨.obj kvs, st.uv, st.ubyU, st.ubyN, st.ud, sel, ia,
               st.fv, st.fbyU, st.fbyN, st.fd, fdata⟩
        | .error e => .error e
      | some _ => .error (.malformed "account vaults property is not a list")
      | none => .error (.malformed "account is missing vaults property")
    | some _ => .error (.malformed "account attrs property is not a dict")
    | none => .error (.malformed "account is missing attrs property")
  | _ => .error (.malformed "account is not a dict")

/-- One entry of the `include_vault_names` selection spec given to
`OnePasswordArchive.__init__`: either a bare vault name-or-uuid (optionally
`None`), or an (account name-or-uuid, vault name-or-uuid) pair. -/
inductive SelTok where
  | bare (vault : Option String)
  | pair (account : Option String) (vault : Option String)
deriving DecidableEq, Repr

/-- The `'*'` wildcard is normalized to `None` by `add_account_vault_name`. -/
def normStar (s : Option String) : Option String :=
  if s = some "*" then none else s

/-- `add_account_vault_name`: normalize the wildcard, create the account's
vault-token set if absent, and add the vault token to it. -/
def avnAdd (m : List (Option String × Finset (Option String)))
    (an vn : Option String) : List (Option String × Finset (Option String)) :=
  let an' := normStar an
  let vn' := normStar vn
  alSet m an' ((alGet m an').getD ∅ ∪ {vn'})

/-- The fold of the selection spec into `account_vault_names` (a dict from
account token to the set of vault tokens registered for it). -/
def buildAVN : List SelTok → List (Option String × Finset (Option String)) →
    List (Option String × Finset (Option String))
  | [], m => m
  | .bare vn :: rest, m => buildAVN rest (avnAdd m none vn)
  | .pair an vn :: rest, m => buildAVN rest (avnAdd m an vn)

/-- Loop state of `OnePasswordArchive.__init__`'s `for account_data in
data['accounts']` loop. -/
structure ArchSt where
  ua : List AccountData
  ubyU : List (String × AccountData)
  ubyN : List (String × AccountData)
  ud : Finset String
  fa : List AccountData
  fbyU : List (String × AccountData)
  fbyN : List (String × AccountData)
  fd : Finset String

/-- The per-account effective vault selector computed inside the account loop
(`vault_names` in the source), as a function of the resolved selection
context and the account's owner name and uuid. -/
def acctSelOf (specIsNone : Bool) (wild : Option (Finset (Option String)))
    (avn : List (Option String × Finset (Option String))) (iaa : Bool)
    (raw : Json) : Finset (Option String) :=
  match ownerName raw, accountUuid raw with
  | some nm, some uuid =>
    let byName := alGet avn (some nm)
    let byUuid := alGet avn (some uuid)
    let includeAccount := iaa || byName.isSome || byUuid.isSome
    if includeAccount then
      (if specIsNone then {none} else ∅) ∪ wild.getD ∅ ∪ byName.getD ∅ ∪ byUuid.getD ∅ ∪
        (if byName = none ∧ byUuid = none ∧ wild = none then {none} else ∅)
    else ∅
  | _, _ => ∅

/-- `include_account` for one account payload (line 349 of the source). -/
def includeAccB (avn : List (Option String × Finset (Option String)))
    (iaa : Bool) (raw : Json) : Bool :=
  iaa ||
  (match ownerName raw with
    | some nm => (alGet avn (some nm)).isSome
    | none => false) ||
  (match accountUuid raw with
    | some uuid => (alGet avn (some uuid)).isSome
    | none => false)

/-- The account loop of `OnePasswordArchive.__init__`: read the account's
`attrs['name']` (note: the *owner* name, not `accountName`), reject a
duplicate, read `attrs['uuid']`, reject a duplicate, compute the effective
vault selector, parse the account with it, extend the unfiltered aggregates,
and extend the filtered aggregates when the account is included. -/
def archLoop (specIsNone : Bool) (wild : Option (Finset (Option String)))
    (avn : List (Option String × Finset (Option String))) (iaa : Bool) :
    List Json → ArchSt → Except Err ArchSt
  | [], st => .ok st
  | raw :: rest, st =>
    match ownerName raw with
    | none => .error (.missingKey "account name")
    | some nm =>
      if (alGet st.ubyN nm).isSome then .error (.dupAccountName nm)
      else
        match accountUuid raw with
        | none => .error (.missingKey "account uuid")
        | some uuid =>
          if (alGet st.ubyU uuid).isSome then .error (.dupAccountUuid uuid)
          else
            match parseAccount raw (some (acctSelOf specIsNone wild avn iaa raw)) with
            | .error e => .error e
            | .ok acc =>
              let inc := includeAccB avn iaa raw
              archLoop specIsNone wild avn iaa rest
                ⟨st.ua ++ [acc], st.ubyU ++ [(uuid, acc)], st.ubyN ++ [(nm, acc)],
                 st.ud ∪ acc.unfiltered_document_ids,
                 if inc then st.fa ++ [acc] else st.fa,
                 if inc then st.fbyU ++ [(uuid, acc)] else st.fbyU,
                 if inc then st.fbyN ++ [(nm, acc)] else st.fbyN,
                 if inc then st.fd ∪ acc.filtered_document_ids else st.fd⟩

/-- `OnePasswordArchive` (the parts relevant to the export data): the parsed
JSON root and the unfiltered/filtered account aggregates. -/
structure ArchiveData where
  unfiltered_data : Json
  unfiltered_accounts : List AccountData
  unfiltered_accounts_by_uuid : List (String × AccountData)
  unfiltered_accounts_by_name : List (String × AccountData)
  unfiltered_document_ids : Finset String
  filtered_accounts : List AccountData
  filtered_accounts_by_uuid : List (String × AccountData)
  filtered_accounts_by_name : List (String × AccountData)
  filtered_document_ids : Finset String

/-- `OnePasswordArchive.__init__` restricted to the export-data processing:
resolve the selection spec into `account_vault_names`, compute
`wild_account_vault_names` and `include_all_accounts`, and run the account
loop over `data['accounts']`.  (The container cross-checks on document files
only print diagnostics and change no state, so they are omitted.) -/
def parseArchive (data : Json) (include_vault_names : Option (List SelTok)) :
    Except Err ArchiveData :=
  match data with
  | .obj kvs =>
    match alGet kvs "accounts" with
    | some (.arr raws) =>
      let avn := buildAVN (include_vault_names.getD []) []
      let wild := alGet avn none
      let iaa := include_vault_names.isNone || wild.isSome
      match archLoop include_vault_names.isNone wild avn iaa raws
          ⟨[], [], [], ∅, [], [], [], ∅⟩ with
      | .ok st => .ok ⟨.obj kvs, st.ua, st.ubyU, st.ubyN, st.ud,
                       st.fa, st.fbyU, st.fbyN, st.fd⟩
      | .error e => .error e
    | _ => .error (.malformed "export data accounts")
  | _ => .error (.malformed "export data is not a dict")

/-- `OnePasswordArchive.get_filtered_data`: shallow-copy the unfiltered JSON
root and replace `accounts` with the filtered payloads of the included
accounts. -/
def getFilteredData (a : ArchiveData) : Json :=
  objSet a.unfiltered_data "accounts"
    (.arr (a.filtered_accounts.map (fun acc => acc.filtered_data)))

/-- `OnePasswordArchive.filename_to_document_id`: the slice
`filename[6:eoid]` where `eoid` is the index of the first `'_'` in the whole
name, or the length when there is none.  The caller guarantees (source
`assert`) that the name starts with `files/`. -/
def filenameToDocumentId (filename : String) : String :=
  let cs := filename.toList
  let eoid := if '_' ∈ cs then cs.findIdx (fun c => decide (c = '_')) else cs.length
  ⟨(cs.take eoid).drop 6⟩

/-- `OnePasswordArchive.unfiltered_zipinfos`: the container entries other
than the two fixed files and the `files/` directory that live under the
`files/` prefix, in container order (duplicates kept; entries outside
`files/` only produce a diagnostic and are dropped). -/
def unfilteredZipinfos (names : List String) : List String :=
  names.filter (fun n =>
    !(n = "export.attributes" || n = "export.data" || n = "files/") &&
    "files/".toList.isPrefixOf n.toList)

/-- `OnePasswordArchive.filtered_zipinfos`: every unfiltered entry whose
parsed document id is in the filtered document-id set (a plain membership
filter — nothing removes entries that map to an already-seen id). -/
def filteredZipinfos (filtered_document_ids : Finset String)
    (names : List String) : List String :=
  (unfilteredZipinfos names).filter
    (fun n => decide (filenameToDocumentId n ∈ filtered_document_ids))

/-- `OnePasswordArchive.file_document_ids`: the set of document ids parsed
from the unfiltered entries (multiplicity lost; a repeat only warns). -/
def fileDocumentIds (names : List String) : Finset String :=
  ((unfilteredZipinfos names).map filenameToDocumentId).toFinset

/-- The fields of a `zipfile.ZipInfo` that `OnePasswordArchive.new_zipinfo`
sets.  A `datetime` modification time is abstracted to its POSIX seconds
(`calendar.timegm(mod_time.utctimetuple())`), the only form in which the
source uses it beyond the per-field `date_time` tuple. -/
structure ZipInfoM where
  flag_bits : Nat
  filename : String
  mod_posix : Option Int
  extra : List Nat
  external_attr : Nat
  compress_type : Nat
  comment : Option String

/-- `zipfile.ZIP_STORED` (no compression). -/
def ZIP_STORED : Nat := 0

/-- `zipfile.ZIP_DEFLATED`. -/
def ZIP_DEFLATED : Nat := 8

/-- The four little-endian bytes of `struct.pack('<l', t)`: the two's
complement of `t` (faithful for `t` in the signed 32-bit range, outside of
which the Python call raises instead). -/
def le4 (t : Int) : List Nat :=
  let n := (t % (2 ^ 32 : Int)).toNat
  [n % 256, n / 256 % 256, n / 65536 % 256, n / 16777216 % 256]

/-- `struct.pack('<hhBl', 0x5455, 5, 1, posix_timestamp)`: signature bytes
`55 54`, payload length `05 00`, flag byte `01`, then the timestamp. -/
def packExtendedTimestamp (t : Int) : List Nat :=
  [0x55, 0x54, 0x05, 0x00, 0x01] ++ le4 t

/-- `OnePasswordArchive.new_zipinfo`. -/
def newZipinfo (filename : String) (mod_time : Option Int) (mode_bits : Option Nat)
    (is_dir : Bool) (is_symlink : Bool) (comment : Option String) : ZipInfoM :=
  let is_dir := if is_symlink then false else is_dir
  let flag_bits := if filename.toList.any (fun c => 128 ≤ c.toNat) then 0x0800 else 0
  let extra := match mod_time with
    | some t => packExtendedTimestamp t
    | none => []
  let mb0 := match mode_bits with
    | some m => m
    | none => if is_dir then 0o755 else 0o644
  let mb1 := if is_dir then mb0 ||| 0o40000
    else if is_symlink then mb0 ||| 0o120000
    else mb0
  let ea0 := mb1 <<< 16
  let ea := if is_dir then ea0 ||| 0x10 else ea0
  ⟨flag_bits, filename, mod_time, extra, ea,
   if is_dir || is_symlink then ZIP_STORED else ZIP_DEFLATED, comment⟩

/-- The flag bits handed to `os.open`. -/
structure OpenFlags where
  o_creat : Bool
  o_excl : Bool
  o_wronly : Bool
deriving DecidableEq, Repr

/-- The flags in `os.open(file, os.O_CREAT | os.O_WRONLY, 0o600)` on line 607
of the source: create-if-absent, write-only — and no `O_EXCL`. -/
def writeFilteredArchiveOpenFlags : OpenFlags :=
  ⟨true, false, true⟩

/-- POSIX `open` semantics for these flags: the call fails exactly when
`O_CREAT|O_EXCL` is given and the file exists, or the file is absent and
`O_CREAT` is not given.  With `O_CREAT` alone an existing file is simply
opened (not truncated) and a missing one is created. -/
def posixOpenFails (file_exists : Bool) (f : OpenFlags) : Bool :=
  (f.o_creat && f.o_excl && file_exists) || (!file_exists && !f.o_creat)

/-- Outcome of `write_filtered_archive`'s destination-opening step. -/
inductive WriteDestOutcome where
  | raisesBeforeWriting
  | writesArchive (over_existing_file : Bool)
deriving DecidableEq, Repr

/-- `write_filtered_archive` for a `str` destination path: the path is opened
with `os.open(file, os.O_CREAT | os.O_WRONLY, 0o600)` and the resulting file
object is handed to `ZipFile(file, mode='x')`.  `ZipFile` performs its
exclusive-create open (`'xb'`) only when given a path, not a file object, so
no further existence check happens: if the low-level open succeeds the
archive is written to whatever the path named. -/
def writeFilteredArchiveDest (file_exists : Bool) : WriteDestOutcome :=
  if posixOpenFails file_exists writeFilteredArchiveOpenFlags then .raisesBeforeWriting
  else .writesArchive file_exists

/-! ## Derived predicates and sample data -/

/-- `account_vault_names` as resolved by `OnePasswordArchive.__init__`. -/
def avnOf (ivn : Option (List SelTok)) : List (Option String × Finset (Option String)) :=
  buildAVN (ivn.getD []) []

/-- `wild_account_vault_names`. -/
def wildOf (ivn : Option (List SelTok)) : Option (Finset (Option String)) :=
  alGet (avnOf ivn) none

/-- `include_all_accounts`. -/
def iaaOf (ivn : Option (List SelTok)) : Bool :=
  ivn.isNone || (wildOf ivn).isSome

/-- The effective vault selector (`vault_names`) computed for one account. -/
def selOfAccount (ivn : Option (List SelTok)) (raw : Json) : Finset (Option String) :=
  acctSelOf ivn.isNone (wildOf ivn) (avnOf ivn) (iaaOf ivn) raw

/-- `include_account` for one account payload under the resolved spec. -/
def includeAccount (ivn : Option (List SelTok)) (raw : Json) : Bool :=
  includeAccB (avnOf ivn) (iaaOf ivn) raw

/-- Selection predicate on a parsed vault (the test of §4.4: wildcard member,
or the vault's uuid, or the vault's name in the selector). -/
def vaultPassB (sel : Finset (Option String)) (v : VaultData) : Bool :=
  decide (none ∈ sel) ||
  (match vaultUuid v.data with
    | some u => decide (some u ∈ sel)
    | none => false) ||
  (match vaultName v.data with
    | some n => decide (some n ∈ sel)
    | none => false)

/-- The `items` list of a vault payload (empty when absent or mistyped). -/
def itemsOfJ (j : Json) : List Json :=
  match jAttr j "items" with
  | some (.arr l) => l
  | _ => []

/-- The `vaults` list of an account payload. -/
def vaultsOfJ (j : Json) : List Json :=
  match jAttr j "vaults" with
  | some (.arr l) => l
  | _ => []

/-- The `accounts` list of the export payload. -/
def accountsOfJ (j : Json) : List Json :=
  match jAttr j "accounts" with
  | some (.arr l) => l
  | _ => []

/-- Well-formed item payload: has a string `uuid`. -/
def wfItemB (j : Json) : Bool :=
  (itemUuid j).isSome

/-- Well-formed vault payload: `attrs` dict with string `uuid` and `name`,
`items` list of well-formed items. -/
def wfVaultB (j : Json) : Bool :=
  (match jAttr j "attrs" with
    | some (.obj _) => true
    | _ => false) &&
  (match jAttr j "items" with
    | some (.arr its) => its.all wfItemB
    | _ => false) &&
  (vaultUuid j).isSome && (vaultName j).isSome

/-- Well-formed account payload: `attrs` dict with string `uuid`, `name` and
`accountName`, `vaults` list of well-formed vaults. -/
def wfAccountB (j : Json) : Bool :=
  (match jAttr j "attrs" with
    | some (.obj _) => true
    | _ => false) &&
  (match jAttr j "vaults" with
    | some (.arr vs) => vs.all wfVaultB
    | _ => false) &&
  (ownerName j).isSome && (accountUuid j).isSome && (accountName j).isSome

/-- Well-formed export payload: a dict whose `accounts` is a list of
well-formed accounts. -/
def wfDataB (j : Json) : Bool :=
  match jAttr j "accounts" with
  | some (.arr accs) => accs.all wfAccountB
  | _ => false

/-- No duplicate identifiers anywhere in the export payload: account owner
names and uuids unique across the archive, vault uuids and names unique
within each account, item uuids unique within each vault. -/
def noDupIdentsB (d : Json) : Bool :=
  decide (((accountsOfJ d).filterMap ownerName).Nodup) &&
  decide (((accountsOfJ d).filterMap accountUuid).Nodup) &&
  (accountsOfJ d).all (fun a =>
    decide (((vaultsOfJ a).filterMap vaultUuid).Nodup) &&
    decide (((vaultsOfJ a).filterMap vaultName).Nodup) &&
    (vaultsOfJ a).all (fun v => decide (((itemsOfJ v).filterMap itemUuid).Nodup)))

/-- An item payload with one attached document reference. -/
def itJ (u d : String) : Json :=
  .obj [("uuid", .str u), ("details", .obj [("documentId", .str d)])]

/-- A vault payload. -/
def vltJ (u n : String) (its : List Json) : Json :=
  .obj [("attrs", .obj [("uuid", .str u), ("name", .str n)]), ("items", .arr its)]

/-- An account payload. -/
def accJ (u n an : String) (vs : List Json) : Json :=
  .obj [("attrs", .obj [("uuid", .str u), ("name", .str n), ("accountName", .str an)]),
        ("vaults", .arr vs)]

/-- An export payload. -/
def expJ (accs : List Json) : Json :=
  .obj [("attrs", .obj []), ("accounts", .arr accs)]

/-- Sample archive: one account with two vaults, one document each. -/
def sampleExport : Json :=
  expJ [accJ "a1" "Alice" "Acme"
    [vltJ "v1" "Personal" [itJ "i1" "d1"], vltJ "v2" "Work" [itJ "i2" "d2"]]]

def dfltVault : VaultData := ⟨.null, [], [], ∅⟩

def dfltAccount : AccountData := ⟨.null, [], [], [], ∅, ∅, false, [], [], [], ∅, .null⟩

def dfltArchive : ArchiveData := ⟨.null, [], [], [], ∅, [], [], [], ∅⟩

/-- The sample archive parsed with the selection `["Personal"]`. -/
def samplePersonal : ArchiveData :=
  (parseArchive sampleExport (some [.bare (some "Personal")])).toOption.getD dfltArchive

/-- The sample archive parsed with no selection spec. -/
def sampleAll : ArchiveData :=
  (parseArchive sampleExport none).toOption.getD dfltArchive

/-- Account with a single vault, selected explicitly by name (not by
wildcard): every vault is included yet the constructor takes the copy
branch. -/
def c6acctJ : Json := accJ "a1" "Alice" "Acme" [vltJ "v1" "Personal" []]

def c6sel : Finset (Option String) := {some "Personal"}

def c6parsed : AccountData :=
  (parseAccount c6acctJ (some c6sel)).toOption.getD dfltAccount

/-- Account with two vaults used for the C3 witness. -/
def c3acctJ : Json :=
  accJ "a1" "Alice" "Acme" [vltJ "v1" "Personal" [], vltJ "v2" "Work" []]

def c3parsed : AccountData :=
  (parseAccount c3acctJ (some c6sel)).toOption.getD dfltAccount

def c3vault : VaultData := c3parsed.unfiltered_vaults.getD 0 dfltVault

/-- Two accounts with distinct `accountName`s but the same owner `name`. -/
def c10dupJ : Json := expJ [accJ "a1" "Alice" "AcmeX" [], accJ "a2" "Alice" "AcmeY" []]

/-- One account whose `accountName` (`Acme`) differs from its owner name. -/
def c10missJ : Json := expJ [accJ "a1" "Alice" "Acme" []]

def c10parsed : ArchiveData :=
  (parseArchive c10missJ none).toOption.getD dfltArchive

/-! ## Library-style helper lemmas -/

theorem alGet_isSome_iff {κ α : Type} [DecidableEq κ] (l : List (κ × α)) (k : κ) :
    (alGet l k).isSome = true ↔ k ∈ l.map Prod.fst := by
  induction l with
  | nil => simp [alGet]
  | cons p t ih =>
    obtain ⟨k', v⟩ := p
    by_cases h : k' = k
    · subst h; simp [alGet]
    · rw [List.map_cons, List.mem_cons]
      simp only [alGet, if_neg h]
      rw [ih]
      constructor
      · exact Or.inr
      · rintro (hk | hm)
        · exact absurd hk.symm h
        · exact hm

theorem alGet_eq_none_iff {κ α : Type} [DecidableEq κ] (l : List (κ × α)) (k : κ) :
    alGet l k = none ↔ k ∉ l.map Prod.fst := by
  rw [← alGet_isSome_iff]
  cases alGet l k <;> simp

theorem alSet_of_alGet_eq {κ α : Type} [DecidableEq κ] (l : List (κ × α)) (k : κ) (v : α)
    (h : alGet l k = some v) : alSet l k v = l := by
  induction l with
  | nil => simp [alGet] at h
  | cons p t ih =>
    obtain ⟨k', v'⟩ := p
    by_cases hk : k' = k
    · subst hk
      simp [alGet] at h
      simp [alSet, h]
    · simp [alGet, hk] at h
      simp [alSet, hk, ih h]

theorem mem_unionList (l : List (Finset String)) (x : String) :
    x ∈ unionList l ↔ ∃ s ∈ l, x ∈ s := by
  induction l with
  | nil => simp [unionList]
  | cons s t ih =>
    show x ∈ s ∪ unionList t ↔ _
    rw [Finset.mem_union, ih]
    constructor
    · rintro (hx | ⟨u, hu, hxu⟩)
      · exact ⟨s, List.mem_cons_self s t, hx⟩
      · exact ⟨u, List.mem_cons_of_mem s hu, hxu⟩
    · rintro ⟨u, hu, hxu⟩
      rcases List.mem_cons.mp hu with h | h
      · exact Or.inl (h ▸ hxu)
      · exact Or.inr ⟨u, h, hxu⟩

theorem unionList_append (l₁ l₂ : List (Finset String)) :
    unionList (l₁ ++ l₂) = unionList l₁ ∪ unionList l₂ := by
  induction l₁ with
  | nil => simp [unionList]
  | cons s t ih =>
    show s ∪ unionList (t ++ l₂) = s ∪ unionList t ∪ unionList l₂
    rw [ih, Finset.union_assoc]

theorem unionList_subset (l₁ l₂ : List (Finset String))
    (h : ∀ s ∈ l₁, ∃ t ∈ l₂, s ⊆ t) : unionList l₁ ⊆ unionList l₂ := by
  intro x hx
  rw [mem_unionList] at hx ⊢
  obtain ⟨s, hs, hxs⟩ := hx
  obtain ⟨t, ht, hst⟩ := h s hs
  exact ⟨t, ht, hst hxs⟩

theorem take_findIdx_eq_takeWhile (p : Char → Bool) (l : List Char) :
    l.take (l.findIdx p) = l.takeWhile (fun c => !(p c)) := by
  induction l with
  | nil => rfl
  | cons c t ih =>
    by_cases h : p c = true
    · simp [List.findIdx_cons, h, List.takeWhile_cons]
    · simp only [Bool.not_eq_true] at h
      simp [List.findIdx_cons, h, List.takeWhile_cons, ih]

theorem takeWhile_append_of_all (q : Char → Bool) (p rest : List Char)
    (h : ∀ c ∈ p, q c = true) : (p ++ rest).takeWhile q = p ++ rest.takeWhile q := by
  induction p with
  | nil => simp
  | cons c t ih =>
    have hc : q c = true := h c (List.mem_cons_self c t)
    simp [List.takeWhile_cons, hc]
    exact ih (fun c hc' => h c (List.mem_cons_of_mem _ hc'))

/-! ## C8: document id parsed from a container entry name -/

/-- **C8.** For every container entry name beginning with `files/`, the parsed
document identifier is the part of the name after `files/` up to (and
excluding) the first underscore — equivalently the whole remainder when there
is no underscore (the `files/` prefix itself contains no underscore, so the
first underscore of the whole name and of the remainder coincide). -/
theorem c8_filename_to_document_id (filename : String)
    (h : ∃ rest, filename.toList = "files/".toList ++ rest) :
    (filenameToDocumentId filename).toList
      = (filename.toList.drop 6).takeWhile (fun c => decide (c ≠ '_')) := by
  obtain ⟨rest, hcs⟩ := h
  have hpre : ∀ c ∈ "files/".toList, (fun c => !(decide (c = '_'))) c = true := by decide
  have h6 : ("files/".toList).length = 6 := by decide
  have hdropped : filename.toList.drop 6 = rest := by
    rw [hcs, ← h6, List.drop_left]
  have hun : (filenameToDocumentId filename).toList
      = (filename.toList.take
          (if '_' ∈ filename.toList then
            filename.toList.findIdx (fun c => decide (c = '_'))
          else filename.toList.length)).drop 6 := rfl
  rw [hun, hdropped]
  by_cases hmem : '_' ∈ filename.toList
  · rw [if_pos hmem, take_findIdx_eq_takeWhile, hcs,
      takeWhile_append_of_all _ _ _ hpre, ← h6, List.drop_left]
    congr 1
    funext c
    simp [decide_not]
  · rw [if_neg hmem, List.take_length]
    have hrw : filename.toList.drop 6 = rest := hdropped
    rw [hrw]
    have hnone : ∀ c ∈ rest, (fun c => decide (c ≠ '_')) c = true := by
      intro c hc
      have hmem' : c ∈ filename.toList := by
        rw [hcs]; exact List.mem_append_right _ hc
      simp only [decide_eq_true_eq]
      intro hEq
      exact hmem (hEq ▸ hmem')
    exact (List.takeWhile_eq_self_iff.mpr hnone).symm

/-- Witness for C8 at a concrete entry name with an underscore. -/
theorem c8_witness :
    (∃ rest, "files/doc1_att.txt".toList = "files/".toList ++ rest) ∧
    ("files/doc1_att.txt".toList.drop 6).takeWhile (fun c => decide (c ≠ '_'))
      = (filenameToDocumentId "files/doc1_att.txt").toList :=
  ⟨⟨"doc1_att.txt".toList, by decide⟩,
   (c8_filename_to_document_id "files/doc1_att.txt" ⟨"doc1_att.txt".toList, by decide⟩).symm⟩

theorem count_filter_eq (pred : String → Bool) (L : List String) (n : String) :
    (L.filter pred).count n = if pred n = true then L.count n else 0 := by
  induction L with
  | nil => simp
  | cons a t ih =>
    by_cases hn : pred n = true
    · rw [if_pos hn] at ih ⊢
      by_cases ha : pred a = true
      · rw [List.filter_cons_of_pos ha, List.count_cons, List.count_cons, ih]
      · rw [List.filter_cons_of_neg ha, ih, List.count_cons]
        have hne : ¬(a == n) = true := by
          intro hb
          exact ha ((beq_iff_eq.mp hb) ▸ hn)
        simp [hne]
    · rw [if_neg hn] at ih ⊢
      by_cases ha : pred a = true
      · rw [List.filter_cons_of_pos ha, List.count_cons, ih]
        have hne : ¬(a == n) = true := by
          intro hb
          exact hn ((beq_iff_eq.mp hb) ▸ ha)
        simp [hne]
      · rw [List.filter_cons_of_neg ha, ih]

/-! ## C5: destination opening in `write_filtered_archive` -/

/-- **C5 (code bug).** For a `str` destination path that already exists, the
source does not fail: line 607 opens the path with `O_CREAT | O_WRONLY` but
without `O_EXCL`, so the POSIX open succeeds on an existing file, and the
pre-opened file object defeats `ZipFile`'s `mode='x'` exclusive-create check
(which only applies when `ZipFile` is given a path).  The archive is written
over the existing file instead of raising a destination-exists error. -/
theorem c5_existing_destination_overwritten :
    writeFilteredArchiveDest true = .writesArchive true ∧
    writeFilteredArchiveOpenFlags.o_excl = false ∧
    posixOpenFails true writeFilteredArchiveOpenFlags = false := by
  decide

/-! ## C9: `new_zipinfo` field derivation -/

/-- **C9 counterexample.** For a directory entry (`files/`, default mode
bits), the external file attributes are not the permission bits shifted into
the high 16 bits plus the directory bit: the source first ORs the POSIX
directory file-type bits `0o40000` into the mode, giving `0o40755 << 16`
rather than the claimed `0o755 << 16` in the high half. -/
theorem c9_counterexample :
    (newZipinfo "files/" none none true false none).external_attr
        = 0o40755 <<< 16 ||| 0x10 ∧
    (newZipinfo "files/" none none true false none).external_attr
        ≠ 0o755 <<< 16 + 0x10 := by
  decide

/-- **C9 (amended).** `new_zipinfo` sets: the UTF-8 name flag (0x0800) exactly
when the name has a character with code point ≥ 128; the extended-timestamp
extra block `55 54 05 00 01` + little-endian POSIX seconds when a time is
given (faithful for times in the signed 32-bit range, outside which the
Python `struct.pack` raises); external attributes = (permission bits ORed
with the POSIX file-type bits — `0o40000` for directories, `0o120000` for
symlinks) shifted left 16, plus the 0x10 directory bit for directories; and
stored (uncompressed) for directories and symlinks, deflate otherwise.  A
symlink flag overrides the directory flag. -/
theorem c9_new_zipinfo_fields (filename : String) (mod_time : Option Int)
    (mode_bits : Option Nat) (is_dir is_symlink : Bool) (comment : Option String)
    (hrange : ∀ t, mod_time = some t → -(2 ^ 31) ≤ t ∧ t < 2 ^ 31) :
    ((newZipinfo filename mod_time mode_bits is_dir is_symlink comment).flag_bits
      = if filename.toList.any (fun c => 128 ≤ c.toNat) then 0x0800 else 0) ∧
    (∀ t, mod_time = some t →
      (newZipinfo filename mod_time mode_bits is_dir is_symlink comment).extra
        = [0x55, 0x54, 0x05, 0x00, 0x01] ++ le4 t) ∧
    (mod_time = none →
      (newZipinfo filename mod_time mode_bits is_dir is_symlink comment).extra = []) ∧
    ((newZipinfo filename mod_time mode_bits is_dir is_symlink comment).external_attr
      = ((mode_bits.getD (if is_dir && !is_symlink then 0o755 else 0o644) |||
          (if is_dir && !is_symlink then 0o40000
           else if is_symlink then 0o120000 else 0)) <<< 16) |||
        (if is_dir && !is_symlink then 0x10 else 0)) ∧
    ((newZipinfo filename mod_time mode_bits is_dir is_symlink comment).compress_type
      = if (is_dir && !is_symlink) || is_symlink then ZIP_STORED else ZIP_DEFLATED) := by
  cases is_symlink <;> cases is_dir <;> cases mode_bits <;> cases mod_time <;>
    simp [newZipinfo, packExtendedTimestamp, Option.getD, Nat.or_zero]

/-- Witness for C9 (amended) at a directory with a timestamp and a non-ASCII
name. -/
theorem c9_witness :
    (∀ t : Int, (some 1700000000 : Option Int) = some t → -(2 ^ 31) ≤ t ∧ t < 2 ^ 31) ∧
    ((newZipinfo "ü" (some 1700000000) none true false none).flag_bits
      = if "ü".toList.any (fun c => 128 ≤ c.toNat) then 0x0800 else 0) ∧
    ((newZipinfo "ü" (some 1700000000) none true false none).extra
      = [0x55, 0x54, 0x05, 0x00, 0x01] ++ le4 1700000000) :=
  ⟨fun t ht => by injection ht with h; subst h; constructor <;> decide,
   (c9_new_zipinfo_fields "ü" (some 1700000000) none true false none
     (fun t ht => by injection ht with h; subst h; constructor <;> decide)).1,
   (c9_new_zipinfo_fields "ü" (some 1700000000) none true false none
     (fun t ht => by injection ht with h; subst h; constructor <;> decide)).2.1
     1700000000 rfl⟩

/-! ## C7: duplicate document files in `filtered_zipinfos` -/

/-- **C7 counterexample.** Two distinct container entries mapping to the same
document id `d1`, with `d1` in the filtered set: `filtered_zipinfos` keeps
*both* entries — later duplicates are not omitted, contradicting
first-seen-wins. -/
theorem c7_counterexample :
    filteredZipinfos {"d1"} ["export.attributes", "export.data", "files/",
        "files/d1_a.txt", "files/d1_b.txt"]
      = ["files/d1_a.txt", "files/d1_b.txt"] ∧
    filenameToDocumentId "files/d1_a.txt" = filenameToDocumentId "files/d1_b.txt" ∧
    ("files/d1_a.txt" : String) ≠ "files/d1_b.txt" := by
  decide

/-- **C7 (amended).** `filtered_zipinfos` is the plain membership filter of
the unfiltered entry list: it preserves the unfiltered order (a sublist), and
every occurrence of an entry whose parsed document id is in the filtered set
is kept with its full multiplicity — duplicates are not collapsed to the
first occurrence. -/
theorem c7_filtered_zipinfos_all_occurrences (fdids : Finset String) (names : List String) :
    (filteredZipinfos fdids names).Sublist (unfilteredZipinfos names) ∧
    ∀ n, (filteredZipinfos fdids names).count n
      = if filenameToDocumentId n ∈ fdids then (unfilteredZipinfos names).count n else 0 := by
  constructor
  · exact List.filter_sublist _
  · intro n
    have h := count_filter_eq (fun m => decide (filenameToDocumentId m ∈ fdids))
      (unfilteredZipinfos names) n
    rw [filteredZipinfos, h]
    by_cases hm : filenameToDocumentId n ∈ fdids <;> simp [hm]

/-! ## Loop invariants: items and vaults -/

theorem vaultItemsLoop_ok (raws : List Json) :
    ∀ items byU docs items' byU' docs',
    vaultItemsLoop raws items byU docs = .ok (items', byU', docs') →
    items' = items ++ raws.map parseItem ∧
    docs' = docs ∪ unionList (raws.map (fun r => (parseItem r).document_ids)) := by
  induction raws with
  | nil =>
    intro items byU docs items' byU' docs' h
    injection h with h'
    injection h' with h1 h2
    injection h2 with h2 h3
    subst h1; subst h3
    simp [unionList]
  | cons r rest ih =>
    intro items byU docs items' byU' docs' h
    rw [vaultItemsLoop] at h
    rcases hu : itemUuid r with _ | u <;> rw [hu] at h <;> dsimp only at h
    · exact absurd h (by simp)
    · by_cases hdup : (alGet byU u).isSome = true
      · rw [if_pos hdup] at h
        exact absurd h (by simp)
      · rw [if_neg hdup] at h
        obtain ⟨h1, h2⟩ := ih _ _ _ _ _ _ h
        constructor
        · rw [h1, List.append_assoc]
          rfl
        · rw [h2]
          show _ = docs ∪ ((parseItem r).document_ids ∪ _)
          rw [← Finset.union_assoc]
          rfl

theorem parseVault_ok (j : Json) (v : VaultData) (h : parseVault j = .ok v) :
    v.data = j ∧ v.items = (itemsOfJ j).map parseItem ∧
    v.document_ids = unionList (v.items.map (fun it => it.document_ids)) := by
  cases j with
  | obj kvs =>
    rw [parseVault] at h
    rcases hA : alGet kvs "attrs" with _ | av <;> rw [hA] at h <;> (try dsimp only at h)
    · exact absurd h (by simp)
    · cases av with
      | obj akvs =>
        dsimp only at h
        rcases hI : alGet kvs "items" with _ | iv <;> rw [hI] at h <;> (try dsimp only at h)
        · exact absurd h (by simp)
        · cases iv with
          | arr raws =>
            dsimp only at h
            rcases hL : vaultItemsLoop raws [] [] ∅ with e | trip <;>
              rw [hL] at h <;> (try dsimp only at h)
            · exact absurd h (by simp)
            · obtain ⟨items, byU, docs⟩ := trip
              dsimp only at h
              injection h with h'
              obtain ⟨h1, h2⟩ := vaultItemsLoop_ok raws [] [] ∅ items byU docs hL
              subst h'
              refine ⟨rfl, ?_, ?_⟩
              · show items = _
                rw [h1]
                simp [itemsOfJ, jAttr, hI]
              · show docs = _
                rw [h2, h1]
                rw [List.nil_append, List.map_map]
                rw [Finset.empty_union]
                rfl
          | str s => exact absurd h (by simp)
          | num n => exact absurd h (by simp)
          | bool b => exact absurd h (by simp)
          | null => exact absurd h (by simp)
          | obj l => exact absurd h (by simp)
      | str s => exact absurd h (by simp)
      | num n => exact absurd h (by simp)
      | bool b => exact absurd h (by simp)
      | null => exact absurd h (by simp)
      | arr l => exact absurd h (by simp)
  | str s => exact absurd h (by simp [parseVault])
  | num n => exact absurd h (by simp [parseVault])
  | bool b => exact absurd h (by simp [parseVault])
  | null => exact absurd h (by simp [parseVault])
  | arr l => exact absurd h (by simp [parseVault])

theorem vaultItemsLoop_iff (raws : List Json) :
    ∀ items byU docs,
    (∀ r ∈ raws, (itemUuid r).isSome = true) →
    ((byU.map Prod.fst : List String)).Nodup →
    (((vaultItemsLoop raws items byU docs).isOk = true) ↔
      (byU.map Prod.fst ++ raws.filterMap itemUuid).Nodup) ∧
    (∀ e, vaultItemsLoop raws items byU docs = .error e → e.isDupIdent = true) := by
  induction raws with
  | nil =>
    intro items byU docs _ hnd
    refine ⟨?_, ?_⟩
    · simp [vaultItemsLoop, Except.isOk, Except.toBool, hnd]
    · intro e he
      exact absurd he (by simp [vaultItemsLoop])
  | cons r rest ih =>
    intro items byU docs hwf hnd
    have hu : ∃ u, itemUuid r = some u := by
      have hw := hwf r (List.mem_cons_self r rest)
      rcases h : itemUuid r with _ | u
      · rw [h] at hw; exact absurd hw (by simp)
      · exact ⟨u, rfl⟩
    obtain ⟨u, hu⟩ := hu
    have hfm : (r :: rest).filterMap itemUuid = u :: rest.filterMap itemUuid := by
      rw [List.filterMap_cons, hu]
    have hstep : vaultItemsLoop (r :: rest) items byU docs
        = if (alGet byU u).isSome then .error (.dupItemUuid u)
          else vaultItemsLoop rest (items ++ [parseItem r]) (byU ++ [(u, parseItem r)])
            (docs ∪ (parseItem r).document_ids) := by
      rw [vaultItemsLoop, hu]
    by_cases hdup : (alGet byU u).isSome = true
    · rw [hstep, if_pos hdup, hfm]
      have humem : u ∈ byU.map Prod.fst := (alGet_isSome_iff byU u).mp hdup
      have hnotnodup : ¬ (byU.map Prod.fst ++ u :: rest.filterMap itemUuid).Nodup := by
        intro hN
        obtain ⟨_, _, hdis⟩ := List.nodup_append.mp hN
        exact hdis humem (List.mem_cons_self u _)
      refine ⟨?_, ?_⟩
      · simp [Except.isOk, Except.toBool, hnotnodup]
      · intro e he
        injection he with he'
        rw [← he']
        rfl
    · rw [hstep, if_neg hdup, hfm]
      have hkeys : ((byU ++ [(u, parseItem r)]).map Prod.fst : List String)
          = byU.map Prod.fst ++ [u] := by simp
      have hunotmem : u ∉ byU.map Prod.fst := fun hm =>
        hdup ((alGet_isSome_iff byU u).mpr hm)
      have hnd' : (((byU ++ [(u, parseItem r)]).map Prod.fst : List String)).Nodup := by
        rw [hkeys]
        rw [List.nodup_append]
        exact ⟨hnd, List.nodup_singleton u, by
          intro a ha hb
          rw [List.mem_singleton] at hb
          exact hunotmem (hb ▸ ha)⟩
      obtain ⟨ih1, ih2⟩ := ih (items ++ [parseItem r]) (byU ++ [(u, parseItem r)])
        (docs ∪ (parseItem r).document_ids)
        (fun r' hr' => hwf r' (List.mem_cons_of_mem r hr')) hnd'
      refine ⟨?_, ih2⟩
      rw [ih1, hkeys, List.append_assoc, List.singleton_append]

theorem parseVault_iff (j : Json) (h : wfVaultB j = true) :
    ((parseVault j).isOk = true ↔ ((itemsOfJ j).filterMap itemUuid).Nodup) ∧
    (∀ e, parseVault j = .error e → e.isDupIdent = true) := by
  cases j with
  | obj kvs =>
    simp only [wfVaultB, jAttr, Bool.and_eq_true] at h
    obtain ⟨⟨⟨hA0, hI0⟩, _⟩, _⟩ := h
    rcases hA : alGet kvs "attrs" with _ | av <;> rw [hA] at hA0
    · exact absurd hA0 (by simp)
    · cases av with
      | obj akvs =>
        rcases hI : alGet kvs "items" with _ | iv <;> rw [hI] at hI0
        · exact absurd hI0 (by simp)
        · cases iv with
          | arr raws =>
            have hwfits : ∀ r ∈ raws, (itemUuid r).isSome = true := by
              intro r hr
              have := (List.all_eq_true.mp hI0) r hr
              rwa [wfItemB] at this
            have hitems : itemsOfJ (Json.obj kvs) = raws := by
              simp [itemsOfJ, jAttr, hI]
            obtain ⟨hiff, hcls⟩ := vaultItemsLoop_iff raws [] [] ∅ hwfits (by simp)
            have hpv : parseVault (Json.obj kvs)
                = (match vaultItemsLoop raws [] [] ∅ with
                  | .ok (items, byU, docs) =>
                    .ok ⟨Json.obj kvs, items, byU, docs⟩
                  | .error e => .error e) := by
              rw [parseVault, hA, hI]
            rw [hitems]
            rcases hL : vaultItemsLoop raws [] [] ∅ with e | trip <;> rw [hL] at hpv
            · refine ⟨?_, ?_⟩
              · rw [hpv]
                rw [hL] at hiff
                simp only [Except.isOk, Except.toBool] at hiff ⊢
                simp only [List.map_nil, List.nil_append] at hiff
                constructor
                · intro hfalse; exact absurd hfalse (by simp)
                · intro hnd
                  exact absurd (hiff.mpr hnd) (by simp)
              · intro e' he'
                rw [hpv] at he'
                injection he' with he''
                exact he'' ▸ hcls e hL
            · obtain ⟨items, byU, docs⟩ := trip
              refine ⟨?_, ?_⟩
              · rw [hpv]
                rw [hL] at hiff
                simp only [Except.isOk, Except.toBool] at hiff ⊢
                simp only [List.map_nil, List.nil_append] at hiff
                simp only [true_iff] at hiff
                simp [hiff]
              · intro e' he'
                rw [hpv] at he'
                exact absurd he' (by simp)
          | str s => exact absurd hI0 (by simp)
          | num n => exact absurd hI0 (by simp)
          | bool b => exact absurd hI0 (by simp)
          | null => exact absurd hI0 (by simp)
          | obj l => exact absurd hI0 (by simp)
      | str s => exact absurd hA0 (by simp)
      | num n => exact absurd hA0 (by simp)
      | bool b => exact absurd hA0 (by simp)
      | null => exact absurd hA0 (by simp)
      | arr l => exact absurd hA0 (by simp)
  | str s => exact absurd h (by simp [wfVaultB, jAttr])
  | num n => exact absurd h (by simp [wfVaultB, jAttr])
  | bool b => exact absurd h (by simp [wfVaultB, jAttr])
  | null => exact absurd h (by simp [wfVaultB, jAttr])
  | arr l => exact absurd h (by simp [wfVaultB, jAttr])

/-! ## Loop invariants: accounts -/

theorem accLoop_cons (sel : Finset (Option String)) (ia : Bool) (r : Json)
    (rest : List Json) (st : AccSt) (v : VaultData) (u n : String)
    (hpv : parseVault r = .ok v) (hu : vaultUuid v.data = some u)
    (hn : vaultName v.data = some n) :
    accLoop sel ia (r :: rest) st =
      if (alGet st.ubyU u).isSome then .error (.dupVaultUuid u)
      else if (alGet st.ubyN n).isSome then .error (.dupVaultName n)
      else accLoop sel ia rest
        ⟨st.uv ++ [v], st.ubyU ++ [(u, v)], st.ubyN ++ [(n, v)],
         st.ud ∪ v.document_ids,
         if !ia && (decide (some u ∈ sel) || decide (some n ∈ sel))
           then st.fv ++ [v] else st.fv,
         if !ia && (decide (some u ∈ sel) || decide (some n ∈ sel))
           then st.fbyU ++ [(u, v)] else st.fbyU,
         if !ia && (decide (some u ∈ sel) || decide (some n ∈ sel))
           then st.fbyN ++ [(n, v)] else st.fbyN,
         if !ia && (decide (some u ∈ sel) || decide (some n ∈ sel))
           then st.fd ∪ v.document_ids else st.fd⟩ := by
  rw [accLoop, hpv]
  dsimp only
  rw [hu]
  dsimp only
  rw [hn]

theorem accLoop_ok (sel : Finset (Option String)) (ia : Bool)
    (hia : ia = decide (none ∈ sel)) (raws : List Json) :
    ∀ st st', accLoop sel ia raws st = .ok st' →
    ∃ vs : List VaultData,
      (∀ v ∈ vs, ∃ r, parseVault r = .ok v) ∧
      st'.uv = st.uv ++ vs ∧
      st'.ud = st.ud ∪ unionList (vs.map (fun v => v.document_ids)) ∧
      st'.fv = st.fv ++ (if ia = true then [] else vs.filter (vaultPassB sel)) ∧
      st'.fd = st.fd ∪ (if ia = true then ∅
        else unionList ((vs.filter (vaultPassB sel)).map (fun v => v.document_ids))) := by
  induction raws with
  | nil =>
    intro st st' h
    rw [accLoop] at h
    injection h with h'
    subst h'
    refine ⟨[], by simp, by simp, ?_, by simp, ?_⟩
    · cases ia <;> simp [unionList]
    · cases ia <;> simp [unionList]
  | cons r rest ih =>
    intro st st' h
    rw [accLoop] at h
    rcases hpv : parseVault r with e | v <;> rw [hpv] at h <;> (try dsimp only at h)
    · exact absurd h (by simp)
    · rcases hu : vaultUuid v.data with _ | u <;> rw [hu] at h <;> (try dsimp only at h)
      · exact absurd h (by simp)
      · by_cases hdU : (alGet st.ubyU u).isSome = true
        · rw [if_pos hdU] at h
          exact absurd h (by simp)
        · rw [if_neg hdU] at h
          rcases hn : vaultName v.data with _ | n <;> rw [hn] at h <;> (try dsimp only at h)
          · exact absurd h (by simp)
          · by_cases hdN : (alGet st.ubyN n).isSome = true
            · rw [if_pos hdN] at h
              exact absurd h (by simp)
            · rw [if_neg hdN] at h
              obtain ⟨vs, hvs, h1, h2, h3, h4⟩ := ih _ _ h
              refine ⟨v :: vs, ?_, ?_, ?_, ?_, ?_⟩
              · intro w hw
                rcases List.mem_cons.mp hw with hw | hw
                · exact ⟨r, hw ▸ hpv⟩
                · exact hvs w hw
              · rw [h1]
                dsimp only
                rw [List.append_assoc, List.singleton_append]
              · rw [h2]
                dsimp only
                show _ = st.ud ∪ (v.document_ids ∪ _)
                rw [← Finset.union_assoc]
                rfl
              · cases ia with
                | true =>
                  rw [h3]
                  dsimp only
                  simp
                | false =>
                  have hnone : decide (none ∈ sel) = false := hia.symm
                  have hpass : vaultPassB sel v
                      = (decide (some u ∈ sel) || decide (some n ∈ sel)) := by
                    rw [vaultPassB, hu, hn, hnone]
                    simp
                  dsimp only at h3
                  simp only [Bool.not_false, Bool.true_and] at h3
                  rw [if_neg Bool.false_ne_true] at h3 ⊢
                  rw [List.filter_cons, hpass]
                  by_cases hk : (decide (some u ∈ sel) || decide (some n ∈ sel)) = true
                  · rw [if_pos hk] at h3
                    rw [if_pos hk, h3, List.append_assoc, List.singleton_append]
                  · have hk' : ¬ ((decide (some u ∈ sel) || decide (some n ∈ sel)) = true) := hk
                    rw [if_neg hk'] at h3
                    rw [if_neg hk', h3]
              · cases ia with
                | true =>
                  rw [h4]
                  dsimp only
                  simp
                | false =>
                  have hnone : decide (none ∈ sel) = false := hia.symm
                  have hpass : vaultPassB sel v
                      = (decide (some u ∈ sel) || decide (some n ∈ sel)) := by
                    rw [vaultPassB, hu, hn, hnone]
                    simp
                  dsimp only at h4
                  simp only [Bool.not_false, Bool.true_and] at h4
                  rw [if_neg Bool.false_ne_true] at h4 ⊢
                  rw [List.filter_cons, hpass]
                  by_cases hk : (decide (some u ∈ sel) || decide (some n ∈ sel)) = true
                  · rw [if_pos hk] at h4
                    rw [if_pos hk, h4]
                    show _ = st.fd ∪ (v.document_ids ∪ _)
                    rw [← Finset.union_assoc]
                    rfl
                  · have hk' : ¬ ((decide (some u ∈ sel) || decide (some n ∈ sel)) = true) := hk
                    rw [if_neg hk'] at h4
                    rw [if_neg hk', h4]

theorem parseAccount_spec (j : Json) (ivn : Option (Finset (Option String)))
    (acc : AccountData) (h : parseAccount j ivn = .ok acc) :
    acc.unfiltered_data = j ∧
    acc.vault_name_set = ivn.getD {none} ∧
    acc.include_all_vaults = decide (none ∈ ivn.getD {none}) ∧
    acc.filtered_vaults = acc.unfiltered_vaults.filter (vaultPassB acc.vault_name_set) ∧
    acc.unfiltered_document_ids
      = unionList (acc.unfiltered_vaults.map (fun v => v.document_ids)) ∧
    acc.filtered_document_ids
      = unionList ((acc.unfiltered_vaults.filter (vaultPassB acc.vault_name_set)).map
          (fun v => v.document_ids)) ∧
    (∀ v ∈ acc.unfiltered_vaults, ∃ r, parseVault r = .ok v) ∧
    (acc.include_all_vaults = true → acc.filtered_data = acc.unfiltered_data) ∧
    (acc.include_all_vaults = false →
      acc.filtered_data = objSet acc.unfiltered_data "vaults"
        (.arr (acc.filtered_vaults.map (fun v => v.data)))) := by
  cases j with
  | obj kvs =>
    rw [parseAccount] at h
    rcases hA : alGet kvs "attrs" with _ | av <;> rw [hA] at h <;> (try dsimp only at h)
    · exact absurd h (by simp)
    · cases av with
      | obj akvs =>
        dsimp only at h
        rcases hV : alGet kvs "vaults" with _ | vv <;> rw [hV] at h <;> (try dsimp only at h)
        · exact absurd h (by simp)
        · cases vv with
          | arr raws =>
            dsimp only at h
            rcases hL : accLoop (ivn.getD {none}) (decide (none ∈ ivn.getD {none})) raws
                ⟨[], [], [], ∅, [], [], [], ∅⟩ with e | st <;> rw [hL] at h <;>
              (try dsimp only at h)
            · exact absurd h (by simp)
            · injection h with h'
              obtain ⟨vs, hvs, h1, h2, h3, h4⟩ :=
                accLoop_ok (ivn.getD {none}) (decide (none ∈ ivn.getD {none})) rfl raws
                  _ st hL
              simp only [List.nil_append] at h1
              subst h'
              subst h1
              constructor
              · rfl
              constructor
              · rfl
              constructor
              · rfl
              constructor
              · show AccountData.filtered_vaults _ = _
                rw [AccountData.filtered_vaults]
                by_cases hia : decide (none ∈ ivn.getD {none}) = true
                · show (if decide (none ∈ ivn.getD {none}) = true then _ else _) = _
                  rw [if_pos hia]
                  have : ∀ v ∈ st.uv, vaultPassB (ivn.getD {none}) v = true := by
                    intro v _
                    rw [vaultPassB, hia]
                    simp
                  exact (List.filter_eq_self.mpr this).symm
                · show (if decide (none ∈ ivn.getD {none}) = true then _ else _) = _
                  rw [if_neg hia, h3, if_neg hia]
                  simp
              constructor
              · show st.ud = _
                rw [h2]
                simp
              constructor
              · show AccountData.filtered_document_ids _ = _
                rw [AccountData.filtered_document_ids]
                by_cases hia : decide (none ∈ ivn.getD {none}) = true
                · show (if decide (none ∈ ivn.getD {none}) = true then _ else _) = _
                  rw [if_pos hia]
                  have hall : ∀ v ∈ st.uv, vaultPassB (ivn.getD {none}) v = true := by
                    intro v _
                    rw [vaultPassB, hia]
                    simp
                  rw [List.filter_eq_self.mpr hall, h2]
                  simp
                · show (if decide (none ∈ ivn.getD {none}) = true then _ else _) = _
                  rw [if_neg hia, h4, if_neg hia]
                  simp
              constructor
              · exact hvs
              constructor
              · intro hia
                show (if decide (none ∈ ivn.getD {none}) = true then _ else _) = _
                rw [if_pos hia]
              · intro hia
                have hia' : decide (none ∈ ivn.getD {none}) = false := hia
                have hneg : ¬ (decide (none ∈ ivn.getD {none}) = true) := by
                  rw [hia']
                  exact Bool.false_ne_true
                show (if decide (none ∈ ivn.getD {none}) = true then _ else _) = _
                rw [if_neg hneg]
                rw [AccountData.filtered_vaults]
                show _ = objSet (Json.obj kvs) "vaults"
                  (Json.arr (List.map (fun v => v.data)
                    (if decide (none ∈ ivn.getD {none}) = true then st.uv else st.fv)))
                rw [if_neg hneg]
          | str s => exact absurd h (by simp)
          | num n => exact absurd h (by simp)
          | bool b => exact absurd h (by simp)
          | null => exact absurd h (by simp)
          | obj l => exact absurd h (by simp)
      | str s => exact absurd h (by simp)
      | num n => exact absurd h (by simp)
      | bool b => exact absurd h (by simp)
      | null => exact absurd h (by simp)
      | arr l => exact absurd h (by simp)
  | str s => exact absurd h (by simp [parseAccount])
  | num n => exact absurd h (by simp [parseAccount])
  | bool b => exact absurd h (by simp [parseAccount])
  | null => exact absurd h (by simp [parseAccount])
  | arr l => exact absurd h (by simp [parseAccount])

theorem accLoop_iff (sel : Finset (Option String)) (ia : Bool) (raws : List Json) :
    ∀ st : AccSt, (∀ r ∈ raws, wfVaultB r = true) →
    ((st.ubyU.map Prod.fst : List String)).Nodup →
    ((st.ubyN.map Prod.fst : List String)).Nodup →
    (((accLoop sel ia raws st).isOk = true) ↔
      ((∀ r ∈ raws, ((itemsOfJ r).filterMap itemUuid).Nodup) ∧
       (st.ubyU.map Prod.fst ++ raws.filterMap vaultUuid).Nodup ∧
       (st.ubyN.map Prod.fst ++ raws.filterMap vaultName).Nodup)) ∧
    (∀ e, accLoop sel ia raws st = .error e → e.isDupIdent = true) := by
  induction raws with
  | nil =>
    intro st _ hndU hndN
    refine ⟨?_, ?_⟩
    · rw [accLoop]
      simp [Except.isOk, Except.toBool, hndU, hndN]
    · intro e he
      exact absurd he (by simp [accLoop])
  | cons r rest ih =>
    intro st hwf hndU hndN
    have hwfr : wfVaultB r = true := hwf r (List.mem_cons_self r rest)
    have hUr : ∃ u, vaultUuid r = some u := by
      have h4 := hwfr
      simp only [wfVaultB, Bool.and_eq_true] at h4
      obtain ⟨⟨_, hU⟩, _⟩ := h4
      rcases h : vaultUuid r with _ | u
      · rw [h] at hU; exact absurd hU (by simp)
      · exact ⟨u, rfl⟩
    have hNr : ∃ n, vaultName r = some n := by
      have h4 := hwfr
      simp only [wfVaultB, Bool.and_eq_true] at h4
      obtain ⟨_, hN⟩ := h4
      rcases h : vaultName r with _ | n
      · rw [h] at hN; exact absurd hN (by simp)
      · exact ⟨n, rfl⟩
    obtain ⟨u, hu⟩ := hUr
    obtain ⟨n, hn⟩ := hNr
    have hfmU : (r :: rest).filterMap vaultUuid = u :: rest.filterMap vaultUuid := by
      rw [List.filterMap_cons, hu]
    have hfmN : (r :: rest).filterMap vaultName = n :: rest.filterMap vaultName := by
      rw [List.filterMap_cons, hn]
    obtain ⟨hpviff, hpvcls⟩ := parseVault_iff r hwfr
    rcases hpv : parseVault r with e | v
    · have hred : accLoop sel ia (r :: rest) st = .error e := by
        rw [accLoop, hpv]
      have hnotnodup : ¬ ((itemsOfJ r).filterMap itemUuid).Nodup := by
        intro hnd
        have := hpviff.mpr hnd
        rw [hpv] at this
        exact absurd this (by simp [Except.isOk, Except.toBool])
      refine ⟨?_, ?_⟩
      · rw [hred]
        simp only [Except.isOk, Except.toBool]
        constructor
        · intro hfalse
          exact absurd hfalse (by simp)
        · rintro ⟨hall, _, _⟩
          exact absurd (hall r (List.mem_cons_self r rest)) hnotnodup
      · intro e' he'
        rw [hred] at he'
        injection he' with he''
        exact he'' ▸ hpvcls e hpv
    · have hvd : v.data = r := (parseVault_ok r v hpv).1
      have hu' : vaultUuid v.data = some u := by rw [hvd]; exact hu
      have hn' : vaultName v.data = some n := by rw [hvd]; exact hn
      have hitems_r : ((itemsOfJ r).filterMap itemUuid).Nodup := by
        have : (parseVault r).isOk = true := by rw [hpv]; rfl
        exact hpviff.mp this
      rw [accLoop_cons sel ia r rest st v u n hpv hu' hn']
      by_cases hdU : (alGet st.ubyU u).isSome = true
      · rw [if_pos hdU]
        have humem : u ∈ st.ubyU.map Prod.fst := (alGet_isSome_iff _ u).mp hdU
        have hnotnodup : ¬ (st.ubyU.map Prod.fst ++ (r :: rest).filterMap vaultUuid).Nodup := by
          rw [hfmU]
          intro hN
          obtain ⟨_, _, hdis⟩ := List.nodup_append.mp hN
          exact hdis humem (List.mem_cons_self u _)
        refine ⟨?_, ?_⟩
        · simp only [Except.isOk, Except.toBool]
          constructor
          · intro hfalse
            exact absurd hfalse (by simp)
          · rintro ⟨_, hndup, _⟩
            exact absurd hndup hnotnodup
        · intro e' he'
          injection he' with he''
          rw [← he'']
          rfl
      · rw [if_neg hdU]
        by_cases hdN : (alGet st.ubyN n).isSome = true
        · rw [if_pos hdN]
          have hnmem : n ∈ st.ubyN.map Prod.fst := (alGet_isSome_iff _ n).mp hdN
          have hnotnodup : ¬ (st.ubyN.map Prod.fst ++ (r :: rest).filterMap vaultName).Nodup := by
            rw [hfmN]
            intro hN
            obtain ⟨_, _, hdis⟩ := List.nodup_append.mp hN
            exact hdis hnmem (List.mem_cons_self n _)
          refine ⟨?_, ?_⟩
          · simp only [Except.isOk, Except.toBool]
            constructor
            · intro hfalse
              exact absurd hfalse (by simp)
            · rintro ⟨_, _, hndup⟩
              exact absurd hndup hnotnodup
          · intro e' he'
            injection he' with he''
            rw [← he'']
            rfl
        · rw [if_neg hdN]
          have hunotmem : u ∉ st.ubyU.map Prod.fst := fun hm =>
            hdU ((alGet_isSome_iff _ u).mpr hm)
          have hnnotmem : n ∉ st.ubyN.map Prod.fst := fun hm =>
            hdN ((alGet_isSome_iff _ n).mpr hm)
          have hndU' : ((st.ubyU ++ [(u, v)]).map Prod.fst : List String).Nodup := by
            rw [List.map_append]
            rw [List.nodup_append]
            refine ⟨hndU, List.nodup_singleton u, ?_⟩
            intro a ha hb
            rw [List.map_singleton, List.mem_singleton] at hb
            have hb' : a = u := hb
            exact hunotmem (hb' ▸ ha)
          have hndN' : ((st.ubyN ++ [(n, v)]).map Prod.fst : List String).Nodup := by
            rw [List.map_append]
            rw [List.nodup_append]
            refine ⟨hndN, List.nodup_singleton n, ?_⟩
            intro a ha hb
            rw [List.map_singleton, List.mem_singleton] at hb
            have hb' : a = n := hb
            exact hnnotmem (hb' ▸ ha)
          obtain ⟨ih1, ih2⟩ := ih
            ⟨st.uv ++ [v], st.ubyU ++ [(u, v)], st.ubyN ++ [(n, v)],
             st.ud ∪ v.document_ids,
             if !ia && (decide (some u ∈ sel) || decide (some n ∈ sel))
               then st.fv ++ [v] else st.fv,
             if !ia && (decide (some u ∈ sel) || decide (some n ∈ sel))
               then st.fbyU ++ [(u, v)] else st.fbyU,
             if !ia && (decide (some u ∈ sel) || decide (some n ∈ sel))
               then st.fbyN ++ [(n, v)] else st.fbyN,
             if !ia && (decide (some u ∈ sel) || decide (some n ∈ sel))
               then st.fd ∪ v.document_ids else st.fd⟩
            (fun r' hr' => hwf r' (List.mem_cons_of_mem r hr'))
            hndU' hndN'
          refine ⟨?_, ih2⟩
          rw [ih1, hfmU, hfmN]
          simp only [List.map_append, List.map_singleton]
          rw [List.append_assoc, List.singleton_append,
            List.append_assoc, List.singleton_append]
          constructor
          · rintro ⟨hall, hnd1, hnd2⟩
            exact ⟨fun r' hr' => by
              rcases List.mem_cons.mp hr' with h | h
              · exact h ▸ hitems_r
              · exact hall r' h, hnd1, hnd2⟩
          · rintro ⟨hall, hnd1, hnd2⟩
            exact ⟨fun r' hr' => hall r' (List.mem_cons_of_mem r hr'), hnd1, hnd2⟩

theorem parseAccount_iff (j : Json) (ivn : Option (Finset (Option String)))
    (h : wfAccountB j = true) :
    (((parseAccount j ivn).isOk = true) ↔
      (((vaultsOfJ j).filterMap vaultUuid).Nodup ∧
       ((vaultsOfJ j).filterMap vaultName).Nodup ∧
       ∀ v ∈ vaultsOfJ j, ((itemsOfJ v).filterMap itemUuid).Nodup)) ∧
    (∀ e, parseAccount j ivn = .error e → e.isDupIdent = true) := by
  cases j with
  | obj kvs =>
    simp only [wfAccountB, jAttr, Bool.and_eq_true] at h
    obtain ⟨⟨⟨⟨hA0, hV0⟩, _⟩, _⟩, _⟩ := h
    rcases hA : alGet kvs "attrs" with _ | av <;> rw [hA] at hA0
    · exact absurd hA0 (by simp)
    · cases av with
      | obj akvs =>
        rcases hV : alGet kvs "vaults" with _ | vv <;> rw [hV] at hV0
        · exact absurd hV0 (by simp)
        · cases vv with
          | arr raws =>
            have hwfvs : ∀ r ∈ raws, wfVaultB r = true := List.all_eq_true.mp hV0
            have hvaults : vaultsOfJ (Json.obj kvs) = raws := by
              simp [vaultsOfJ, jAttr, hV]
            rw [hvaults]
            obtain ⟨hiff, hcls⟩ := accLoop_iff (ivn.getD {none})
              (decide (none ∈ ivn.getD {none})) raws ⟨[], [], [], ∅, [], [], [], ∅⟩
              hwfvs (by simp) (by simp)
            simp only [List.map_nil, List.nil_append] at hiff
            have hpa : parseAccount (Json.obj kvs) ivn
                = (match accLoop (ivn.getD {none}) (decide (none ∈ ivn.getD {none})) raws
                    ⟨[], [], [], ∅, [], [], [], ∅⟩ with
                  | .ok st =>
                    .ok ⟨Json.obj kvs, st.uv, st.ubyU, st.ubyN, st.ud, ivn.getD {none},
                      decide (none ∈ ivn.getD {none}), st.fv, st.fbyU, st.fbyN, st.fd,
                      if decide (none ∈ ivn.getD {none}) = true then Json.obj kvs
                      else objSet (Json.obj kvs) "vaults"
                        (.arr (st.fv.map (fun v => v.data)))⟩
                  | .error e => .error e) := by
              rw [parseAccount, hA, hV]
            rcases hL : accLoop (ivn.getD {none}) (decide (none ∈ ivn.getD {none})) raws
                ⟨[], [], [], ∅, [], [], [], ∅⟩ with e | st <;> rw [hL] at hpa hiff <;>
              (try dsimp only at hpa)
            · refine ⟨?_, ?_⟩
              · rw [hpa]
                simp only [Except.isOk, Except.toBool] at hiff ⊢
                constructor
                · intro hfalse
                  exact absurd hfalse (by simp)
                · intro hnd
                  obtain ⟨hndu, hndn, hall⟩ := hnd
                  exact absurd (hiff.mpr ⟨hall, hndu, hndn⟩) (by simp)
              · intro e' he'
                rw [hpa] at he'
                injection he' with he''
                exact he'' ▸ hcls e hL
            · refine ⟨?_, ?_⟩
              · rw [hpa]
                simp only [Except.isOk, Except.toBool] at hiff ⊢
                simp only [true_iff] at hiff
                obtain ⟨hall, hnd1, hnd2⟩ := hiff
                constructor
                · intro _
                  exact ⟨hnd1, hnd2, hall⟩
                · intro _
                  simp
              · intro e' he'
                rw [hpa] at he'
                exact absurd he' (by simp)
          | str s => exact absurd hV0 (by simp)
          | num n => exact absurd hV0 (by simp)
          | bool b => exact absurd hV0 (by simp)
          | null => exact absurd hV0 (by simp)
          | obj l => exact absurd hV0 (by simp)
      | str s => exact absurd hA0 (by simp)
      | num n => exact absurd hA0 (by simp)
      | bool b => exact absurd hA0 (by simp)
      | null => exact absurd hA0 (by simp)
      | arr l => exact absurd hA0 (by simp)
  | str s => exact absurd h (by simp [wfAccountB, jAttr])
  | num n => exact absurd h (by simp [wfAccountB, jAttr])
  | bool b => exact absurd h (by simp [wfAccountB, jAttr])
  | null => exact absurd h (by simp [wfAccountB, jAttr])
  | arr l => exact absurd h (by simp [wfAccountB, jAttr])

/-! ## Loop invariants: the archive account loop -/

theorem archLoop_cons (sin : Bool) (wild : Option (Finset (Option String)))
    (avn : List (Option String × Finset (Option String))) (iaa : Bool)
    (r : Json) (rest : List Json) (st : ArchSt) (nm uuid : String)
    (hnm : ownerName r = some nm) (huuid : accountUuid r = some uuid) :
    archLoop sin wild avn iaa (r :: rest) st =
      if (alGet st.ubyN nm).isSome then .error (.dupAccountName nm)
      else if (alGet st.ubyU uuid).isSome then .error (.dupAccountUuid uuid)
      else
        match parseAccount r (some (acctSelOf sin wild avn iaa r)) with
        | .error e => .error e
        | .ok acc =>
          archLoop sin wild avn iaa rest
            ⟨st.ua ++ [acc], st.ubyU ++ [(uuid, acc)], st.ubyN ++ [(nm, acc)],
             st.ud ∪ acc.unfiltered_document_ids,
             if includeAccB avn iaa r then st.fa ++ [acc] else st.fa,
             if includeAccB avn iaa r then st.fbyU ++ [(uuid, acc)] else st.fbyU,
             if includeAccB avn iaa r then st.fbyN ++ [(nm, acc)] else st.fbyN,
             if includeAccB avn iaa r then st.fd ∪ acc.filtered_document_ids
             else st.fd⟩ := by
  rw [archLoop, hnm]
  dsimp only
  rw [huuid]

theorem archLoop_ok (sin : Bool) (wild : Option (Finset (Option String)))
    (avn : List (Option String × Finset (Option String))) (iaa : Bool)
    (raws : List Json) :
    ∀ st st', archLoop sin wild avn iaa raws st = .ok st' →
    ∃ accs : List AccountData,
      (∀ a ∈ accs, parseAccount a.unfiltered_data
        (some (acctSelOf sin wild avn iaa a.unfiltered_data)) = .ok a ∧
        (ownerName a.unfiltered_data).isSome = true ∧
        (accountUuid a.unfiltered_data).isSome = true) ∧
      accs.map (fun a => a.unfiltered_data) = raws ∧
      st'.ua = st.ua ++ accs ∧
      st'.ud = st.ud ∪ unionList (accs.map (fun a => a.unfiltered_document_ids)) ∧
      st'.fa = st.fa ++ accs.filter (fun a => includeAccB avn iaa a.unfiltered_data) ∧
      st'.fd = st.fd ∪ unionList
        ((accs.filter (fun a => includeAccB avn iaa a.unfiltered_data)).map
          (fun a => a.filtered_document_ids)) ∧
      st'.ubyN.map Prod.fst = st.ubyN.map Prod.fst ++ raws.filterMap ownerName ∧
      st'.fbyN.map Prod.fst = st.fbyN.map Prod.fst
        ++ (raws.filter (fun r => includeAccB avn iaa r)).filterMap ownerName := by
  induction raws with
  | nil =>
    intro st st' h
    rw [archLoop] at h
    injection h with h'
    subst h'
    exact ⟨[], by simp, by simp, by simp, by simp [unionList], by simp,
      by simp [unionList], by simp, by simp⟩
  | cons r rest ih =>
    intro st st' h
    rw [archLoop] at h
    rcases hnm : ownerName r with _ | nm <;> rw [hnm] at h <;> (try dsimp only at h)
    · exact absurd h (by simp)
    · by_cases hdN : (alGet st.ubyN nm).isSome = true
      · rw [if_pos hdN] at h
        exact absurd h (by simp)
      · rw [if_neg hdN] at h
        rcases huuid : accountUuid r with _ | uuid <;> rw [huuid] at h <;>
          (try dsimp only at h)
        · exact absurd h (by simp)
        · by_cases hdU : (alGet st.ubyU uuid).isSome = true
          · rw [if_pos hdU] at h
            exact absurd h (by simp)
          · rw [if_neg hdU] at h
            rcases hpa : parseAccount r (some (acctSelOf sin wild avn iaa r)) with e | acc <;>
              rw [hpa] at h <;> (try dsimp only at h)
            · exact absurd h (by simp)
            · obtain ⟨accs, hall, hdata, h1, h2, h3, h4, h5, h6⟩ := ih _ _ h
              have hud : acc.unfiltered_data = r := (parseAccount_spec _ _ _ hpa).1
              have hincacc : includeAccB avn iaa acc.unfiltered_data
                  = includeAccB avn iaa r := by rw [hud]
              refine ⟨acc :: accs, ?_, ?_, ?_, ?_, ?_, ?_, ?_, ?_⟩
              · intro a ha
                rcases List.mem_cons.mp ha with ha | ha
                · subst ha
                  rw [hud]
                  exact ⟨hpa, by rw [hnm]; rfl, by rw [huuid]; rfl⟩
                · exact hall a ha
              · rw [List.map_cons, hud, hdata]
              · rw [h1]
                dsimp only
                rw [List.append_assoc, List.singleton_append]
              · rw [h2]
                dsimp only
                show _ = st.ud ∪ (acc.unfiltered_document_ids ∪ _)
                rw [← Finset.union_assoc]
                rfl
              · rw [h3]
                dsimp only
                rw [List.filter_cons, hincacc]
                by_cases hinc : includeAccB avn iaa r = true
                · rw [if_pos hinc, if_pos hinc, List.append_assoc, List.singleton_append]
                · have hinc' : ¬ (includeAccB avn iaa r = true) := hinc
                  rw [if_neg hinc', if_neg hinc']
              · rw [h4]
                dsimp only
                rw [List.filter_cons, hincacc]
                by_cases hinc : includeAccB avn iaa r = true
                · rw [if_pos hinc, if_pos hinc]
                  show _ = st.fd ∪ (acc.filtered_document_ids ∪ _)
                  rw [← Finset.union_assoc]
                  rfl
                · have hinc' : ¬ (includeAccB avn iaa r = true) := hinc
                  rw [if_neg hinc', if_neg hinc']
              · rw [h5]
                dsimp only
                rw [List.filterMap_cons, hnm]
                simp only [List.map_append, List.map_singleton]
                rw [List.append_assoc, List.singleton_append]
              · rw [h6]
                dsimp only
                rw [List.filter_cons]
                by_cases hinc : includeAccB avn iaa r = true
                · rw [if_pos hinc, if_pos hinc]
                  rw [List.filterMap_cons, hnm]
                  simp only [List.map_append, List.map_singleton]
                  rw [List.append_assoc, List.singleton_append]
                · have hinc' : ¬ (includeAccB avn iaa r = true) := hinc
                  rw [if_neg hinc', if_neg hinc']

theorem parseArchive_ok (d : Json) (ivn : Option (List SelTok)) (a : ArchiveData)
    (h : parseArchive d ivn = .ok a) :
    a.unfiltered_data = d ∧
    jAttr d "accounts" = some (.arr (a.unfiltered_accounts.map (fun acc => acc.unfiltered_data))) ∧
    (∀ acc ∈ a.unfiltered_accounts,
      parseAccount acc.unfiltered_data (some (selOfAccount ivn acc.unfiltered_data)) = .ok acc ∧
      (ownerName acc.unfiltered_data).isSome = true ∧
      (accountUuid acc.unfiltered_data).isSome = true) ∧
    a.unfiltered_accounts.map (fun acc => acc.unfiltered_data) = accountsOfJ d ∧
    a.unfiltered_document_ids
      = unionList (a.unfiltered_accounts.map (fun x => x.unfiltered_document_ids)) ∧
    a.filtered_accounts
      = a.unfiltered_accounts.filter (fun x => includeAccount ivn x.unfiltered_data) ∧
    a.filtered_document_ids
      = unionList ((a.unfiltered_accounts.filter
          (fun x => includeAccount ivn x.unfiltered_data)).map
          (fun x => x.filtered_document_ids)) ∧
    a.unfiltered_accounts_by_name.map Prod.fst = (accountsOfJ d).filterMap ownerName ∧
    a.filtered_accounts_by_name.map Prod.fst
      = ((accountsOfJ d).filter (fun r => includeAccount ivn r)).filterMap ownerName := by
  cases d with
  | obj kvs =>
    rw [parseArchive] at h
    rcases hAcc : alGet kvs "accounts" with _ | accv <;> rw [hAcc] at h <;>
      (try dsimp only at h)
    · exact absurd h (by simp)
    · cases accv with
      | arr raws =>
        dsimp only at h
        rcases hL : archLoop ivn.isNone (alGet (buildAVN (ivn.getD []) []) none)
            (buildAVN (ivn.getD []) [])
            (ivn.isNone || (alGet (buildAVN (ivn.getD []) []) none).isSome) raws
            ⟨[], [], [], ∅, [], [], [], ∅⟩ with e | st <;> rw [hL] at h <;>
          (try dsimp only at h)
        · exact absurd h (by simp)
        · injection h with h'
          obtain ⟨accs, hall, hdata, h1, h2, h3, h4, h5, h6⟩ :=
            archLoop_ok _ _ _ _ raws _ st hL
          simp only [List.nil_append] at h1
          subst h'
          subst h1
          have haccounts : accountsOfJ (Json.obj kvs) = raws := by
            simp [accountsOfJ, jAttr, hAcc]
          refine ⟨rfl, ?_, ?_, ?_, ?_, ?_, ?_, ?_, ?_⟩
          · show alGet kvs "accounts" = _
            rw [hAcc, hdata]
          · exact hall
          · rw [haccounts]
            exact hdata
          · show st.ud = _
            rw [h2]
            simp
          · show st.fa = _
            rw [h3]
            dsimp only
            rw [List.nil_append]
            rfl
          · show st.fd = _
            rw [h4]
            dsimp only
            rw [Finset.empty_union]
            rfl
          · show st.ubyN.map Prod.fst = _
            rw [h5, haccounts]
            simp only [List.map_nil, List.nil_append]
          · show st.fbyN.map Prod.fst = _
            rw [h6, haccounts]
            simp only [List.map_nil, List.nil_append]
            rfl
      | str s => exact absurd h (by simp)
      | num n => exact absurd h (by simp)
      | bool b => exact absurd h (by simp)
      | null => exact absurd h (by simp)
      | obj l => exact absurd h (by simp)
  | str s => exact absurd h (by simp [parseArchive])
  | num n => exact absurd h (by simp [parseArchive])
  | bool b => exact absurd h (by simp [parseArchive])
  | null => exact absurd h (by simp [parseArchive])
  | arr l => exact absurd h (by simp [parseArchive])

/-! ## C1: the filtered document-id closure -/

/-- **C1.** For every archive that constructs successfully, the filtered
document-id set is a subset of the unfiltered one, and equals exactly the
union — over the accounts included by the selection — of the document ids
collected from the items of the vaults that satisfy the selection predicate
(wildcard ∈ selector, or vault uuid ∈ selector, or vault name ∈ selector). -/
theorem c1_filtered_document_closure (d : Json) (ivn : Option (List SelTok))
    (a : ArchiveData) (h : parseArchive d ivn = .ok a) :
    a.filtered_document_ids ⊆ a.unfiltered_document_ids ∧
    a.filtered_document_ids = unionList (a.filtered_accounts.map (fun acc =>
      unionList ((acc.unfiltered_vaults.filter (vaultPassB acc.vault_name_set)).map
        (fun v => unionList (v.items.map (fun it => it.document_ids)))))) := by
  obtain ⟨_, _, hall, _, hud, hfa, hfd, _, _⟩ := parseArchive_ok d ivn a h
  constructor
  · rw [hfd, hud]
    apply unionList_subset
    intro s hs
    rw [List.mem_map] at hs
    obtain ⟨acc, hacc, hseq⟩ := hs
    rw [List.mem_filter] at hacc
    obtain ⟨haccmem, _⟩ := hacc
    refine ⟨acc.unfiltered_document_ids, List.mem_map.mpr ⟨acc, haccmem, rfl⟩, ?_⟩
    subst hseq
    obtain ⟨_, _, _, _, hudacc, hfdacc, _, _, _⟩ :=
      parseAccount_spec _ _ _ (hall acc haccmem).1
    rw [hfdacc, hudacc]
    apply unionList_subset
    intro t ht
    rw [List.mem_map] at ht
    obtain ⟨v, hv, hteq⟩ := ht
    rw [List.mem_filter] at hv
    exact ⟨t, List.mem_map.mpr ⟨v, hv.1, hteq⟩, Finset.Subset.refl t⟩
  · rw [hfd, hfa]
    congr 1
    apply List.map_congr_left
    intro acc hacc
    rw [List.mem_filter] at hacc
    obtain ⟨haccmem, _⟩ := hacc
    obtain ⟨_, _, _, _, _, hfdacc, hvaults, _, _⟩ :=
      parseAccount_spec _ _ _ (hall acc haccmem).1
    rw [hfdacc]
    congr 1
    apply List.map_congr_left
    intro v hv
    rw [List.mem_filter] at hv
    obtain ⟨r, hr⟩ := hvaults v hv.1
    exact (parseVault_ok r v hr).2.2

/-- Witness for C1 on the sample archive with selection `["Personal"]`. -/
theorem c1_witness :
    samplePersonal.filtered_document_ids ⊆ samplePersonal.unfiltered_document_ids ∧
    samplePersonal.filtered_document_ids
      = unionList (samplePersonal.filtered_accounts.map (fun acc =>
          unionList ((acc.unfiltered_vaults.filter (vaultPassB acc.vault_name_set)).map
            (fun v => unionList (v.items.map (fun it => it.document_ids)))))) :=
  c1_filtered_document_closure sampleExport (some [.bare (some "Personal")])
    samplePersonal rfl

/-! ## C3: the per-vault selection predicate -/

/-- **C3.** For an account parsed with a vault selector, a vault of the
account is in the filtered vault list iff `None` (the wildcard) is in the
selector, or the vault's uuid is in the selector, or the vault's name is in
the selector. -/
theorem c3_vault_selected_iff (j : Json) (sel : Finset (Option String))
    (acc : AccountData) (h : parseAccount j (some sel) = .ok acc)
    (v : VaultData) (hv : v ∈ acc.unfiltered_vaults) :
    v ∈ acc.filtered_vaults ↔
      (none ∈ sel ∨ (∃ u, vaultUuid v.data = some u ∧ some u ∈ sel) ∨
       (∃ n, vaultName v.data = some n ∧ some n ∈ sel)) := by
  obtain ⟨_, hsel, _, hfv, _⟩ := parseAccount_spec j (some sel) acc h
  have hsel' : acc.vault_name_set = sel := by
    rw [hsel, Option.getD_some]
  rw [hfv, hsel']
  rw [List.mem_filter]
  simp only [hv, true_and]
  rw [vaultPassB]
  rcases hvu : vaultUuid v.data with _ | u <;>
    rcases hvn : vaultName v.data with _ | n <;>
      simp [hvu, hvn, decide_eq_true_eq, or_assoc]

/-- Witness for C3 at a concrete two-vault account with selector
`{"Personal"}`. -/
theorem c3_witness :
    c3vault ∈ c3parsed.unfiltered_vaults ∧
    (c3vault ∈ c3parsed.filtered_vaults ↔
      (none ∈ c6sel ∨ (∃ u, vaultUuid c3vault.data = some u ∧ some u ∈ c6sel) ∨
       (∃ n, vaultName c3vault.data = some n ∧ some n ∈ c6sel))) :=
  ⟨List.mem_cons_self _ _,
   c3_vault_selected_iff c3acctJ c6sel c3parsed rfl c3vault (List.mem_cons_self _ _)⟩

/-! ## C6: when the filtered account payload is a copy vs an alias -/

/-- **C6 counterexample.** An account with a single vault, selected
explicitly by its name (no wildcard in the selector): the filtered vault list
equals the whole unfiltered vault list — no strict subset — and yet the
constructor builds a fresh shallow copy (the filtered payload does not alias
the unfiltered JSON object), contradicting "copy only on strict subset /
alias whenever all vaults are included". -/
theorem c6_counterexample :
    parseAccount c6acctJ (some c6sel) = .ok c6parsed ∧
    c6parsed.filtered_vaults = c6parsed.unfiltered_vaults ∧
    c6parsed.unfiltered_vaults.length = 1 ∧
    c6parsed.filtered_aliases_unfiltered = false :=
  ⟨rfl, rfl, rfl, rfl⟩

/-- **C6 (amended).** The constructor aliases the filtered JSON payload to
the unfiltered one exactly when the selector contains the wildcard `None`
(`include_all_vaults`); in every other case — even when the selector happens
to name every vault — it builds a new shallow copy whose `vaults` are the raw
payloads of the included vaults in their original relative order. -/
theorem c6_filtered_payload_alias_iff (j : Json) (sel : Finset (Option String))
    (acc : AccountData) (h : parseAccount j (some sel) = .ok acc) :
    (acc.filtered_aliases_unfiltered = true ↔ none ∈ sel) ∧
    (acc.filtered_aliases_unfiltered = true → acc.filtered_data = acc.unfiltered_data) ∧
    (acc.filtered_aliases_unfiltered = false →
      acc.filtered_data = objSet acc.unfiltered_data "vaults"
        (.arr (acc.filtered_vaults.map (fun v => v.data)))) := by
  obtain ⟨_, _, hia, _, _, _, _, halias, hcopy⟩ := parseAccount_spec j (some sel) acc h
  refine ⟨?_, halias, hcopy⟩
  rw [AccountData.filtered_aliases_unfiltered, hia]
  simp

/-- Witness for C6 (amended) at the concrete single-vault account. -/
theorem c6_witness :
    parseAccount c6acctJ (some c6sel) = .ok c6parsed ∧
    (c6parsed.filtered_aliases_unfiltered = true ↔ none ∈ c6sel) :=
  ⟨rfl, (c6_filtered_payload_alias_iff c6acctJ c6sel c6parsed rfl).1⟩

/-! ## C2: wildcard selection is the identity -/

theorem objSet_of_jAttr_eq (j : Json) (k : String) (v : Json)
    (h : jAttr j k = some v) : objSet j k v = j := by
  cases j with
  | obj kvs =>
    rw [objSet]
    rw [jAttr] at h
    rw [alSet_of_alGet_eq kvs k v h]
  | str s => exact absurd h (by simp [jAttr])
  | num n => exact absurd h (by simp [jAttr])
  | bool b => exact absurd h (by simp [jAttr])
  | null => exact absurd h (by simp [jAttr])
  | arr l => exact absurd h (by simp [jAttr])

/-- **C2.** Opening an archive with no selection spec (`None`) or with a spec
consisting solely of the wildcard pair `('*', '*')` filters nothing: the
filtered JSON root is equal (as a JSON value, hence serializing
byte-identically) to the unfiltered root, and the filtered document-id set
equals the unfiltered one.  (`get_filtered_data` always builds a fresh
top-level dict, so "same object" holds only up to value equality — which is
what makes the serialized payloads identical.) -/
theorem c2_wildcard_identity (d : Json) (ivn : Option (List SelTok)) (a : ArchiveData)
    (hspec : ivn = none ∨ ivn = some [SelTok.pair (some "*") (some "*")])
    (h : parseArchive d ivn = .ok a) :
    getFilteredData a = a.unfiltered_data ∧
    a.filtered_document_ids = a.unfiltered_document_ids := by
  obtain ⟨hudata, hacckey, hall, hmap, hud, hfa, hfd, _, _⟩ := parseArchive_ok d ivn a h
  have hinc : ∀ raw : Json, includeAccount ivn raw = true := by
    rcases hspec with hs | hs <;> subst hs <;> intro raw <;>
      simp [includeAccount, includeAccB, iaaOf, avnOf, wildOf, buildAVN, avnAdd,
        alGet, alSet, normStar]
  have hwild : ∀ raw : Json, (ownerName raw).isSome = true →
      (accountUuid raw).isSome = true → none ∈ selOfAccount ivn raw := by
    intro raw hnm huuid
    rcases hnm' : ownerName raw with _ | nm
    · rw [hnm'] at hnm
      exact absurd hnm (by simp)
    · rcases huu' : accountUuid raw with _ | uuid
      · rw [huu'] at huuid
        exact absurd huuid (by simp)
      · rcases hspec with hs | hs <;> subst hs <;>
          simp [selOfAccount, acctSelOf, hnm', huu', avnOf, wildOf, iaaOf, buildAVN,
            avnAdd, alGet, alSet, normStar]
  have hfa' : a.filtered_accounts = a.unfiltered_accounts := by
    rw [hfa]
    exact List.filter_eq_self.mpr (fun acc _ => hinc _)
  have hacc_alias : ∀ acc ∈ a.unfiltered_accounts,
      acc.filtered_data = acc.unfiltered_data ∧
      acc.filtered_document_ids = acc.unfiltered_document_ids := by
    intro acc hacc
    obtain ⟨hpa, hnm, huu⟩ := hall acc hacc
    obtain ⟨_, _, hia, _, _, _, _, halias, _⟩ := parseAccount_spec _ _ _ hpa
    have hiaT : acc.include_all_vaults = true := by
      rw [hia, Option.getD_some]
      exact decide_eq_true (hwild _ hnm huu)
    refine ⟨halias hiaT, ?_⟩
    rw [AccountData.filtered_document_ids, hiaT]
    simp
  constructor
  · rw [getFilteredData, hfa']
    have hmapeq : a.unfiltered_accounts.map (fun acc => acc.filtered_data)
        = a.unfiltered_accounts.map (fun acc => acc.unfiltered_data) :=
      List.map_congr_left (fun acc hacc => (hacc_alias acc hacc).1)
    rw [hmapeq]
    apply objSet_of_jAttr_eq
    rw [hudata]
    exact hacckey
  · rw [hfd]
    rw [List.filter_eq_self.mpr (fun acc _ => hinc _)]
    rw [List.map_congr_left (fun acc hacc => (hacc_alias acc hacc).2)]
    exact hud.symm

/-- Witness for C2 on the sample archive with `selection_spec = None`. -/
theorem c2_witness :
    ((none : Option (List SelTok)) = none ∨
      (none : Option (List SelTok)) = some [SelTok.pair (some "*") (some "*")]) ∧
    getFilteredData sampleAll = sampleAll.unfiltered_data ∧
    sampleAll.filtered_document_ids = sampleAll.unfiltered_document_ids :=
  ⟨Or.inl rfl,
   (c2_wildcard_identity sampleExport none sampleAll (Or.inl rfl) rfl).1,
   (c2_wildcard_identity sampleExport none sampleAll (Or.inl rfl) rfl).2⟩

theorem archLoop_iff (sin : Bool) (wild : Option (Finset (Option String)))
    (avn : List (Option String × Finset (Option String))) (iaa : Bool)
    (raws : List Json) :
    ∀ st : ArchSt, (∀ r ∈ raws, wfAccountB r = true) →
    ((st.ubyN.map Prod.fst : List String)).Nodup →
    ((st.ubyU.map Prod.fst : List String)).Nodup →
    (((archLoop sin wild avn iaa raws st).isOk = true) ↔
      ((st.ubyN.map Prod.fst ++ raws.filterMap ownerName).Nodup ∧
       (st.ubyU.map Prod.fst ++ raws.filterMap accountUuid).Nodup ∧
       (∀ r ∈ raws, ((vaultsOfJ r).filterMap vaultUuid).Nodup ∧
         ((vaultsOfJ r).filterMap vaultName).Nodup ∧
         ∀ v ∈ vaultsOfJ r, ((itemsOfJ v).filterMap itemUuid).Nodup))) ∧
    (∀ e, archLoop sin wild avn iaa raws st = .error e → e.isDupIdent = true) := by
  induction raws with
  | nil =>
    intro st _ hndN hndU
    refine ⟨?_, ?_⟩
    · rw [archLoop]
      simp [Except.isOk, Except.toBool, hndN, hndU]
    · intro e he
      exact absurd he (by simp [archLoop])
  | cons r rest ih =>
    intro st hwf hndN hndU
    have hwfr : wfAccountB r = true := hwf r (List.mem_cons_self r rest)
    have hNr : ∃ nm, ownerName r = some nm := by
      have h5 := hwfr
      simp only [wfAccountB, Bool.and_eq_true] at h5
      obtain ⟨⟨⟨_, hN⟩, _⟩, _⟩ := h5
      rcases hx : ownerName r with _ | nm
      · rw [hx] at hN
        exact absurd hN (by simp)
      · exact ⟨nm, rfl⟩
    have hUr : ∃ uuid, accountUuid r = some uuid := by
      have h5 := hwfr
      simp only [wfAccountB, Bool.and_eq_true] at h5
      obtain ⟨⟨_, hU⟩, _⟩ := h5
      rcases hx : accountUuid r with _ | uuid
      · rw [hx] at hU
        exact absurd hU (by simp)
      · exact ⟨uuid, rfl⟩
    obtain ⟨nm, hnm⟩ := hNr
    obtain ⟨uuid, huuid⟩ := hUr
    have hfmN : (r :: rest).filterMap ownerName = nm :: rest.filterMap ownerName := by
      rw [List.filterMap_cons, hnm]
    have hfmU : (r :: rest).filterMap accountUuid = uuid :: rest.filterMap accountUuid := by
      rw [List.filterMap_cons, huuid]
    obtain ⟨hpaiff, hpacls⟩ := parseAccount_iff r (some (acctSelOf sin wild avn iaa r)) hwfr
    rw [archLoop_cons sin wild avn iaa r rest st nm uuid hnm huuid]
    by_cases hdN : (alGet st.ubyN nm).isSome = true
    · rw [if_pos hdN]
      have hnmem : nm ∈ st.ubyN.map Prod.fst := (alGet_isSome_iff _ nm).mp hdN
      have hnotnodup : ¬ (st.ubyN.map Prod.fst ++ (r :: rest).filterMap ownerName).Nodup := by
        rw [hfmN]
        intro hN
        obtain ⟨_, _, hdis⟩ := List.nodup_append.mp hN
        exact hdis hnmem (List.mem_cons_self nm _)
      refine ⟨?_, ?_⟩
      · simp only [Except.isOk, Except.toBool]
        constructor
        · intro hfalse
          exact absurd hfalse (by simp)
        · rintro ⟨hndup, _, _⟩
          exact absurd hndup hnotnodup
      · intro e' he'
        injection he' with he''
        rw [← he'']
        rfl
    · rw [if_neg hdN]
      by_cases hdU : (alGet st.ubyU uuid).isSome = true
      · rw [if_pos hdU]
        have humem : uuid ∈ st.ubyU.map Prod.fst := (alGet_isSome_iff _ uuid).mp hdU
        have hnotnodup :
            ¬ (st.ubyU.map Prod.fst ++ (r :: rest).filterMap accountUuid).Nodup := by
          rw [hfmU]
          intro hN
          obtain ⟨_, _, hdis⟩ := List.nodup_append.mp hN
          exact hdis humem (List.mem_cons_self uuid _)
        refine ⟨?_, ?_⟩
        · simp only [Except.isOk, Except.toBool]
          constructor
          · intro hfalse
            exact absurd hfalse (by simp)
          · rintro ⟨_, hndup, _⟩
            exact absurd hndup hnotnodup
        · intro e' he'
          injection he' with he''
          rw [← he'']
          rfl
      · rw [if_neg hdU]
        rcases hpa : parseAccount r (some (acctSelOf sin wild avn iaa r)) with e | acc
        · have hnotinner : ¬ (((vaultsOfJ r).filterMap vaultUuid).Nodup ∧
              ((vaultsOfJ r).filterMap vaultName).Nodup ∧
              ∀ v ∈ vaultsOfJ r, ((itemsOfJ v).filterMap itemUuid).Nodup) := by
            intro hinner
            have := hpaiff.mpr hinner
            rw [hpa] at this
            exact absurd this (by simp [Except.isOk, Except.toBool])
          refine ⟨?_, ?_⟩
          · simp only [Except.isOk, Except.toBool]
            constructor
            · intro hfalse
              exact absurd hfalse (by simp)
            · rintro ⟨_, _, hall⟩
              exact absurd (hall r (List.mem_cons_self r rest)) hnotinner
          · intro e' he'
            injection he' with he''
            exact he'' ▸ hpacls e hpa
        · have hinner_r : ((vaultsOfJ r).filterMap vaultUuid).Nodup ∧
              ((vaultsOfJ r).filterMap vaultName).Nodup ∧
              ∀ v ∈ vaultsOfJ r, ((itemsOfJ v).filterMap itemUuid).Nodup := by
            apply hpaiff.mp
            rw [hpa]
            rfl
          have hnnotmem : nm ∉ st.ubyN.map Prod.fst := fun hm =>
            hdN ((alGet_isSome_iff _ nm).mpr hm)
          have hunotmem : uuid ∉ st.ubyU.map Prod.fst := fun hm =>
            hdU ((alGet_isSome_iff _ uuid).mpr hm)
          have hndN' : ((st.ubyN ++ [(nm, acc)]).map Prod.fst : List String).Nodup := by
            rw [List.map_append]
            rw [List.nodup_append]
            refine ⟨hndN, List.nodup_singleton nm, ?_⟩
            intro a ha hb
            rw [List.map_singleton, List.mem_singleton] at hb
            have hb' : a = nm := hb
            exact hnnotmem (hb' ▸ ha)
          have hndU' : ((st.ubyU ++ [(uuid, acc)]).map Prod.fst : List String).Nodup := by
            rw [List.map_append]
            rw [List.nodup_append]
            refine ⟨hndU, List.nodup_singleton uuid, ?_⟩
            intro a ha hb
            rw [List.map_singleton, List.mem_singleton] at hb
            have hb' : a = uuid := hb
            exact hunotmem (hb' ▸ ha)
          obtain ⟨ih1, ih2⟩ := ih
            ⟨st.ua ++ [acc], st.ubyU ++ [(uuid, acc)], st.ubyN ++ [(nm, acc)],
             st.ud ∪ acc.unfiltered_document_ids,
             if includeAccB avn iaa r then st.fa ++ [acc] else st.fa,
             if includeAccB avn iaa r then st.fbyU ++ [(uuid, acc)] else st.fbyU,
             if includeAccB avn iaa r then st.fbyN ++ [(nm, acc)] else st.fbyN,
             if includeAccB avn iaa r then st.fd ∪ acc.filtered_document_ids else st.fd⟩
            (fun r' hr' => hwf r' (List.mem_cons_of_mem r hr'))
            hndN' hndU'
          refine ⟨?_, ih2⟩
          rw [ih1, hfmN, hfmU]
          simp only [List.map_append, List.map_singleton]
          rw [List.append_assoc, List.singleton_append,
            List.append_assoc, List.singleton_append]
          constructor
          · rintro ⟨hnd1, hnd2, hall⟩
            refine ⟨hnd1, hnd2, ?_⟩
            intro r' hr'
            rcases List.mem_cons.mp hr' with h' | h'
            · exact h' ▸ hinner_r
            · exact hall r' h'
          · rintro ⟨hnd1, hnd2, hall⟩
            exact ⟨hnd1, hnd2, fun r' hr' => hall r' (List.mem_cons_of_mem r hr')⟩

theorem parseArchive_iff (d : Json) (ivn : Option (List SelTok))
    (h : wfDataB d = true) :
    (((parseArchive d ivn).isOk = true) ↔ noDupIdentsB d = true) ∧
    (∀ e, parseArchive d ivn = .error e → e.isDupIdent = true) := by
  cases d with
  | obj kvs =>
    rw [wfDataB, jAttr] at h
    rcases hAcc : alGet kvs "accounts" with _ | accv <;> rw [hAcc] at h
    · exact absurd h (by simp)
    · cases accv with
      | arr raws =>
        have hwfaccs : ∀ r ∈ raws, wfAccountB r = true := List.all_eq_true.mp h
        have haccounts : accountsOfJ (Json.obj kvs) = raws := by
          simp [accountsOfJ, jAttr, hAcc]
        obtain ⟨hiff, hcls⟩ := archLoop_iff ivn.isNone
          (alGet (buildAVN (ivn.getD []) []) none) (buildAVN (ivn.getD []) [])
          (ivn.isNone || (alGet (buildAVN (ivn.getD []) []) none).isSome) raws
          ⟨[], [], [], ∅, [], [], [], ∅⟩ hwfaccs (by simp) (by simp)
        simp only [List.map_nil, List.nil_append] at hiff
        have hnodup : noDupIdentsB (Json.obj kvs) = true ↔
            ((raws.filterMap ownerName).Nodup ∧
             (raws.filterMap accountUuid).Nodup ∧
             (∀ r ∈ raws, ((vaultsOfJ r).filterMap vaultUuid).Nodup ∧
               ((vaultsOfJ r).filterMap vaultName).Nodup ∧
               ∀ v ∈ vaultsOfJ r, ((itemsOfJ v).filterMap itemUuid).Nodup)) := by
          rw [noDupIdentsB, haccounts]
          simp only [Bool.and_eq_true, decide_eq_true_eq, List.all_eq_true]
          constructor
          · rintro ⟨⟨h1, h2⟩, h3⟩
            refine ⟨h1, h2, ?_⟩
            intro r hr
            obtain ⟨⟨hv1, hv2⟩, hv3⟩ := h3 r hr
            exact ⟨hv1, hv2, fun v hv => hv3 v hv⟩
          · rintro ⟨h1, h2, h3⟩
            refine ⟨⟨h1, h2⟩, ?_⟩
            intro r hr
            obtain ⟨hv1, hv2, hv3⟩ := h3 r hr
            exact ⟨⟨hv1, hv2⟩, fun v hv => hv3 v hv⟩
        have hpar : parseArchive (Json.obj kvs) ivn
            = (match archLoop ivn.isNone (alGet (buildAVN (ivn.getD []) []) none)
                (buildAVN (ivn.getD []) [])
                (ivn.isNone || (alGet (buildAVN (ivn.getD []) []) none).isSome) raws
                ⟨[], [], [], ∅, [], [], [], ∅⟩ with
              | .ok st => .ok ⟨Json.obj kvs, st.ua, st.ubyU, st.ubyN, st.ud,
                  st.fa, st.fbyU, st.fbyN, st.fd⟩
              | .error e => .error e) := by
          rw [parseArchive, hAcc]
        rcases hL : archLoop ivn.isNone (alGet (buildAVN (ivn.getD []) []) none)
            (buildAVN (ivn.getD []) [])
            (ivn.isNone || (alGet (buildAVN (ivn.getD []) []) none).isSome) raws
            ⟨[], [], [], ∅, [], [], [], ∅⟩ with e | st <;> rw [hL] at hpar hiff <;>
          (try dsimp only at hpar)
        · refine ⟨?_, ?_⟩
          · rw [hpar, hnodup]
            simp only [Except.isOk, Except.toBool] at hiff ⊢
            constructor
            · intro hfalse
              exact absurd hfalse (by simp)
            · intro hnd
              exact absurd (hiff.mpr hnd) (by simp)
          · intro e' he'
            rw [hpar] at he'
            injection he' with he''
            exact he'' ▸ hcls e hL
        · refine ⟨?_, ?_⟩
          · rw [hpar, hnodup]
            simp only [Except.isOk, Except.toBool] at hiff ⊢
            simp only [true_iff] at hiff
            constructor
            · intro _
              exact hiff
            · intro _
              simp
          · intro e' he'
            rw [hpar] at he'
            exact absurd he' (by simp)
      | str s => exact absurd h (by simp)
      | num n => exact absurd h (by simp)
      | bool b => exact absurd h (by simp)
      | null => exact absurd h (by simp)
      | obj l => exact absurd h (by simp)
  | str s => exact absurd h (by simp [wfDataB, jAttr])
  | num n => exact absurd h (by simp [wfDataB, jAttr])
  | bool b => exact absurd h (by simp [wfDataB, jAttr])
  | null => exact absurd h (by simp [wfDataB, jAttr])
  | arr l => exact absurd h (by simp [wfDataB, jAttr])

/-! ## C4: duplicate identifiers abort construction -/

/-- **C4.** On a well-formed export payload, construction fails exactly when
some identifier repeats — two items with one uuid inside a vault, two vaults
with one uuid or one name inside an account, or two accounts with one owner
name or one uuid in the archive — and every failure it can then produce is a
duplicate-identifier error, aborting the whole construction. -/
theorem c4_duplicate_identifier_errors (d : Json) (ivn : Option (List SelTok))
    (h : wfDataB d = true) :
    (((parseArchive d ivn).isOk = false) ↔ noDupIdentsB d = false) ∧
    (∀ e, parseArchive d ivn = .error e → e.isDupIdent = true) := by
  obtain ⟨hiff, hcls⟩ := parseArchive_iff d ivn h
  refine ⟨?_, hcls⟩
  constructor
  · intro hfalse
    cases hnd : noDupIdentsB d with
    | false => rfl
    | true =>
      have hok := hiff.mpr hnd
      rw [hok] at hfalse
      exact absurd hfalse (by simp)
  · intro hfalse
    cases hok : (parseArchive d ivn).isOk with
    | false => rfl
    | true =>
      have hnd := hiff.mp hok
      rw [hnd] at hfalse
      exact absurd hfalse (by simp)

/-- Witness for C4 on a concrete archive whose two accounts share the owner
name `Alice`: the well-formedness hypothesis holds, construction fails, and
the produced error is the duplicate-account-name error. -/
theorem c4_witness :
    wfDataB c10dupJ = true ∧
    ((parseArchive c10dupJ none).isOk = false ↔ noDupIdentsB c10dupJ = false) ∧
    Err.isDupIdent (.dupAccountName "Alice") = true :=
  ⟨rfl, (c4_duplicate_identifier_errors c10dupJ none rfl).1,
   (c4_duplicate_identifier_errors c10dupJ none rfl).2 (.dupAccountName "Alice") rfl⟩

/-! ## C10: account indices are keyed by the owner name, not accountName -/

/-- **C10.** The accounts-by-name indices (unfiltered and filtered) are keyed
by the account's `attrs['name']` (the owner display name, `ownerName`), not
by `attrs['accountName']` (`OnePasswordAccountData.account_name`).
Consequently two accounts with distinct `accountName`s but the same owner
name make construction fail with a duplicate-account-name error, and looking
an account up in the by-name index under its `accountName` misses. -/
theorem c10_accounts_keyed_by_owner_name (d : Json) (ivn : Option (List SelTok))
    (a : ArchiveData) (h : parseArchive d ivn = .ok a) :
    (a.unfiltered_accounts_by_name.map Prod.fst = (accountsOfJ d).filterMap ownerName) ∧
    (a.filtered_accounts_by_name.map Prod.fst
      = ((accountsOfJ d).filter (fun r => includeAccount ivn r)).filterMap ownerName) ∧
    (parseArchive c10dupJ none = .error (.dupAccountName "Alice") ∧
     accountName (accJ "a1" "Alice" "AcmeX" []) = some "AcmeX" ∧
     accountName (accJ "a2" "Alice" "AcmeY" []) = some "AcmeY") ∧
    (alGet c10parsed.unfiltered_accounts_by_name "Acme" = none ∧
     (alGet c10parsed.unfiltered_accounts_by_name "Alice").isSome = true ∧
     accountName (accJ "a1" "Alice" "Acme" []) = some "Acme") := by
  obtain ⟨_, _, _, _, _, _, _, hbyname, hfbyname⟩ := parseArchive_ok d ivn a h
  exact ⟨hbyname, hfbyname, ⟨rfl, rfl, rfl⟩, ⟨rfl, rfl, rfl⟩⟩

/-- Witness for C10 on the concrete single-account archive. -/
theorem c10_witness :
    c10parsed.unfiltered_accounts_by_name.map Prod.fst
      = (accountsOfJ c10missJ).filterMap ownerName ∧
    c10parsed.filtered_accounts_by_name.map Prod.fst
      = ((accountsOfJ c10missJ).filter (fun r => includeAccount none r)).filterMap ownerName :=
  ⟨(c10_accounts_keyed_by_owner_name c10missJ none c10parsed rfl).1,
   (c10_accounts_keyed_by_owner_name c10missJ none c10parsed rfl).2.1⟩
